import Mathlib

/-!
# flutter-go: static-asset handler and WebSocket echo relay

A shallow embedding of `cmd/graphql/main.go`.

* Go strings are modelled as `List Char`.  The path algorithms only ever
  inspect the separator `/`, the dot `.` and the NUL character, all of which
  are single ASCII bytes, so working with characters instead of bytes does not
  change any decision the algorithms take.
* Calls into the Go standard library that the handler makes on the response
  writer (`http.Error`, `http.ServeFile`, `http.FileServer(..).ServeHTTP`) are
  recorded as effects with their arguments; the file system and the process
  working directory are explicit inputs (`Env`, `Disk`).
* `path/filepath` (Unix flavour) is embedded from the standard library's
  algorithm: `Clean`, `Join`, `IsAbs`, `Abs`, `Split`.
* The file serving of `net/http` is embedded from the standard library as far
  as it decides what is answered: `ServeFile`, `FileServer`, `serveFile`,
  `Dir.Open`, `toHTTPError`, `localRedirect`; `responseOf` gives the answer to
  a request from the effects of its handler.
-/

namespace SpaServer

/-! ## `path/filepath` on Unix -/

/-- `lazybuf` backtracking of `Clean` on a `..` element.  The buffer is kept
with its most recently written byte first.  Go: `out.w--` followed by
`for out.w > dotdot && !os.IsPathSeparator(out.index(out.w)) { out.w-- }`;
`out.index(out.w)` is the byte that was dropped last. -/
def backtrack (dotdot : Nat) : List Char → List Char
  | [] => []
  | c :: rest => if dotdot < rest.length ∧ c ≠ '/' then backtrack dotdot rest else rest

/-- Go: `if rooted && out.w != 1 || !rooted && out.w != 0 { out.append(Separator) }`,
the "add slash if needed" step before a real path element is copied. -/
def addSlash (rooted : Bool) (out : List Char) : List Char :=
  if (rooted && out.length != 1) || (!rooted && out.length != 0) then '/' :: out else out

/-- The main loop `for r < n { switch { ... } }` of `filepath.Clean`.

* the second argument is `true` while the inner loop
  `for ; r < n && !os.IsPathSeparator(path[r]); r++ { out.append(path[r]) }`
  of the "real path element" case is running; that loop stops in front of a
  separator, which the next outer iteration skips (`r++`), so both steps are
  taken at once here;
* the third argument is the unread input `path[r:]`;
* `out` is the output buffer, most recently written byte first (`out.w` is
  `out.length`);
* the result is the final buffer together with the final `dotdot`. -/
def cleanLoop (rooted : Bool) : Bool → List Char → List Char → Nat → List Char × Nat
  | _, [], out, dotdot => (out, dotdot)
  | true, c :: rest, out, dotdot =>
    if c = '/' then cleanLoop rooted false rest out dotdot
    else cleanLoop rooted true rest (c :: out) dotdot
  | false, c :: rest, out, dotdot =>
    if c = '/' then
      -- empty path element
      cleanLoop rooted false rest out dotdot
    else if c = '.' ∧ (rest = [] ∨ rest.head? = some '/') then
      -- . element
      cleanLoop rooted false rest out dotdot
    else if c = '.' ∧ rest.head? = some '.' ∧ (rest.tail = [] ∨ rest.tail.head? = some '/') then
      -- .. element: remove to last separator
      match rest with
      | [] => (out, dotdot)
      | _ :: rest2 =>
        if dotdot < out.length then
          -- can backtrack
          cleanLoop rooted false rest2 (backtrack dotdot out) dotdot
        else if !rooted then
          -- cannot backtrack, but not rooted, so append .. element
          let out1 := if 0 < out.length then '/' :: out else out
          cleanLoop rooted false rest2 ('.' :: '.' :: out1) (out1.length + 2)
        else
          cleanLoop rooted false rest2 out dotdot
    else
      -- real path element: add slash if needed, then copy the element
      cleanLoop rooted true rest (c :: addSlash rooted out) dotdot

/-- Go `filepath.Clean` (Unix: no volume name, `FromSlash` is the identity). -/
def Clean (path : List Char) : List Char :=
  match path with
  | [] => ['.']
  | c :: rest =>
    let fin :=
      if c = '/' then cleanLoop true false rest ['/'] 1
      else cleanLoop false false (c :: rest) [] 0
    if fin.1.length = 0 then ['.'] else fin.1.reverse

/-- Go `strings.Join(elem, "/")`. -/
def joinSep : List (List Char) → List Char
  | [] => []
  | [e] => e
  | e :: e2 :: es => e ++ '/' :: joinSep (e2 :: es)

/-- Go `filepath.Join`: the elements from the first non-empty one on are joined
with the separator and the result is cleaned; all elements empty gives `""`. -/
def Join : List (List Char) → List Char
  | [] => []
  | e :: es => if e = [] then Join es else Clean (joinSep (e :: es))

/-- Go `filepath.IsAbs` on Unix: `strings.HasPrefix(path, "/")`. -/
def IsAbs (path : List Char) : Bool :=
  path.head? = some '/'

/-- A non-nil `error` returned by the `os` package, as far as the handler looks
at it. -/
structure OsError where
  /-- Whether `os.IsNotExist` holds of the error. -/
  notExist : Bool
  /-- The result of `err.Error()`. -/
  text : String
deriving DecidableEq, Repr

/-- What a request handler can observe of the process and the file system while
it serves one request. -/
structure Env where
  /-- Result of `os.Getwd()`: the working directory or the error text. -/
  getwd : Except String (List Char)
  /-- Result of the `stat` system call on a NUL-free name: `none` for success. -/
  stat : List Char → Option OsError

/-- Go `filepath.Abs` (`unixAbs`): an absolute path is cleaned; any other path
is joined onto the working directory, and fails only when `os.Getwd` fails. -/
def Abs (env : Env) (path : List Char) : Except String (List Char) :=
  if IsAbs path then .ok (Clean path)
  else
    match env.getwd with
    | .error e => .error e
    | .ok wd => .ok (Join [wd, path])

/-- The error of Go `os.Stat(name)`, `none` when it is `nil`.  A name with a NUL
byte never reaches the system call: `syscall.BytePtrFromString` rejects it with
`EINVAL`, wrapped as a `*PathError` for which `os.IsNotExist` is false. -/
def osStat (env : Env) (name : List Char) : Option OsError :=
  if Char.ofNat 0 ∈ name then
    some ⟨false, "stat " ++ String.mk name ++ ": invalid argument"⟩
  else env.stat name

/-! ## The static-asset handler -/

/-- The parts of an `*http.Request` a handler can read. -/
structure Request where
  /-- Field `Method`. -/
  method : String
  /-- Field `URL.Path`. -/
  urlPath : List Char
  /-- Field `URL.RawQuery`. -/
  rawQuery : String
  /-- Field `Header`. -/
  header : List (String × String)
  /-- The request body. -/
  body : List Char
deriving DecidableEq, Repr

/-- Go `type spaHandler struct { staticPath string; indexPath string }`. -/
structure spaHandler where
  /-- Field `staticPath`. -/
  staticPath : List Char
  /-- Field `indexPath`. -/
  indexPath : List Char
deriving DecidableEq, Repr

/-- What a handler does to the file system and to its response writer, in
program order. -/
inductive Effect where
  /-- The call `os.Stat(name)`. -/
  | stat (name : List Char)
  /-- The call `http.Error(w, error, code)`. -/
  | httpError (error : String) (code : Nat)
  /-- The call `http.ServeFile(w, r, name)`. -/
  | serveFile (r : Request) (name : List Char)
  /-- The call `http.FileServer(http.Dir(root)).ServeHTTP(w, r)`. -/
  | fileServer (root : List Char) (r : Request)
  /-- The call `w.Write(body)`, made directly or through `fmt.Fprintf` or a JSON
  encoder. -/
  | write (body : String)
deriving DecidableEq, Repr

/-- The status code of the response, where the handler's own calls fix it: the
code handed to `http.Error`, or 200, which `net/http` sends when the first
`Write` comes without a `WriteHeader` before it (`WriteHeader(http.StatusOK)`).
After `http.ServeFile` or a file server the library decides. -/
def statusOf : List Effect → Option Nat
  | [] => none
  | .httpError _ code :: _ => some code
  | .write _ :: _ => some 200
  | .stat _ :: rest => statusOf rest
  | .serveFile _ _ :: _ => none
  | .fileServer _ _ :: _ => none

/-- Go `os.IsNotExist(err)`; false of the `nil` error. -/
def IsNotExist (err : Option OsError) : Bool :=
  match err with
  | none => false
  | some e => e.notExist

/-- Go `err.Error()` of a non-nil error. -/
def errorText (err : Option OsError) : String :=
  match err with
  | none => ""
  | some e => e.text

/-- Go `func (h spaHandler) ServeHTTP(w http.ResponseWriter, r *http.Request)`. -/
def spaHandler.ServeHTTP (h : spaHandler) (env : Env) (r : Request) : List Effect :=
  -- get the absolute path to prevent directory traversal
  match Abs env r.urlPath with
  | .error e =>
    -- if we failed to get the absolute path respond with a 400 bad request and stop
    [.httpError e 400]
  | .ok path =>
    -- prepend the path with the path to the static directory
    let path := Join [h.staticPath, path]
    -- check whether a file exists at the given path
    let err := osStat env path
    if IsNotExist err then
      -- file does not exist, serve index.html
      [.stat path, .serveFile r (Join [h.staticPath, h.indexPath])]
    else if err ≠ none then
      -- any other error of the stat: 500 internal server error and stop
      [.stat path, .httpError (errorText err) 500]
    else
      -- otherwise, use http.FileServer to serve the static dir
      [.stat path, .fileServer h.staticPath r]

/-- The name of the first `os.Stat` call among the effects. -/
def statName : List Effect → Option (List Char)
  | [] => none
  | .stat name :: _ => some name
  | _ :: rest => statName rest

/-! ## File serving in `net/http` -/

/-- The name under which `http.Dir(dir).Open(name)` opens a file: an empty
`Dir` is `.`, and the file opened is
`filepath.Join(dir, filepath.FromSlash(path.Clean("/"+name)))`.  On Unix
`path.Clean` and `filepath.Clean` are the same function. -/
def dirOpenName (dir name : List Char) : List Char :=
  Join [if dir = [] then ['.'] else dir, Clean ('/' :: name)]

/-- The same name as later Go releases compute it in `Dir.Open(name)`:
`path := path.Clean("/" + name)[1:]`, `.` for the empty path, then
`filepath.Join(dir, path)`. -/
def dirOpenNameLocalized (dir name : List Char) : List Char :=
  let path := (Clean ('/' :: name)).tail
  let path := if path = [] then ['.'] else path
  Join [if dir = [] then ['.'] else dir, path]

/-- What `d.IsDir()` tells of an opened file. -/
inductive FileKind where
  /-- Not a directory. -/
  | regular
  /-- A directory. -/
  | directory
deriving DecidableEq, Repr

/-- The errors of opening a file, as far as `toHTTPError` tells them apart. -/
inductive OpenError where
  /-- `errors.Is(err, fs.ErrNotExist)`. -/
  | notExist
  /-- `errors.Is(err, fs.ErrPermission)`. -/
  | permission
  /-- Any other error. -/
  | other
deriving DecidableEq, Repr

/-- The disk as the file-serving code of `net/http` reads it. -/
structure Disk where
  /-- The result of `os.Open` on a NUL-free name followed by `f.Stat()`, as
  `Dir.Open` hands it on: the error of either, or the kind of the file. -/
  openFile : List Char → Except OpenError FileKind

/-- The result of `Dir.Open` for the name it has computed.  A name with a NUL
byte is refused before any file is opened, with an error that is neither
not-exist nor permission. -/
def osOpen (disk : Disk) (name : List Char) : Except OpenError FileKind :=
  if Char.ofNat 0 ∈ name then .error .other else disk.openFile name

/-- The answer a request gets. -/
inductive Response where
  /-- Go `localRedirect`: header `Location: location`, status 301, no body. -/
  | redirect (location : String)
  /-- Go `http.Error(w, msg, code)`: status `code`, body `msg`. -/
  | error (msg : String) (code : Nat)
  /-- Go `serveContent` on the file opened under the name `name`: the bytes of
  that file with status 200, or the part or the 304 that the range and
  conditional headers of the request ask for. -/
  | content (name : List Char)
  /-- Go `dirList` on the directory opened under the name `name`: a listing of
  the directory (or a 304). -/
  | dirList (name : List Char)
  /-- Bytes the handler writes itself, with status 200. -/
  | written (body : String)
deriving DecidableEq, Repr

/-- Go `toHTTPError`. -/
def toHTTPError : OpenError → Response
  | .notExist => .error "404 page not found" 404
  | .permission => .error "403 Forbidden" 403
  | .other => .error "500 Internal Server Error" 500

/-- Go `path.Base`: the last element of a path, after trailing slashes are
stripped; `.` for the empty path and `/` for a path of slashes only. -/
def Base (path : List Char) : List Char :=
  if path = [] then ['.']
  else
    let stripped := (path.reverse.dropWhile (fun c => c == '/')).reverse
    let last := (stripped.reverse.takeWhile (fun c => c != '/')).reverse
    if last = [] then ['/'] else last

/-- Go `localRedirect(w, r, newPath)`: the query of the request is kept. -/
def localRedirect (r : Request) (newPath : List Char) : Response :=
  if r.rawQuery ≠ "" then .redirect (String.mk newPath ++ "?" ++ r.rawQuery)
  else .redirect (String.mk newPath)

/-- Go `containsDotDot`: whether one of the fields of `v` between slashes or
backslashes (`strings.FieldsFunc(v, isSlashRune)`) is `..`.  The test
`strings.Contains(v, "..")` in front of it only saves the splitting. -/
def containsDotDot (v : List Char) : Bool :=
  (v.splitOnP (fun c => c == '/' || c == '\\')).any (fun ent => ent == ['.', '.'])

/-- Go `filepath.Split`: the path up to and with its last separator, and the
rest. -/
def Split (path : List Char) : List Char × List Char :=
  ((path.reverse.dropWhile (fun c => c != '/')).reverse,
   (path.reverse.takeWhile (fun c => c != '/')).reverse)

/-- Go `strings.TrimSuffix(name, "/")`. -/
def trimSlash (name : List Char) : List Char :=
  if name.getLast? = some '/' then name.dropLast else name

/-- Go `serveFile(w, r, Dir(dir), name, redirect)` of `net/http`. -/
def serveFile (disk : Disk) (r : Request) (dir name : List Char) (redirect : Bool) : Response :=
  -- redirect .../index.html to .../
  if "/index.html".toList.isSuffixOf r.urlPath then localRedirect r "./".toList
  else
    match osOpen disk (dirOpenName dir name) with
    | .error err => toHTTPError err
    | .ok d =>
      let url := r.urlPath
      -- redirect to canonical path: / at end of directory url
      if redirect = true ∧ d = .directory ∧ url.getLast? ≠ some '/' then
        localRedirect r (Base url ++ ['/'])
      else if redirect = true ∧ d = .regular ∧ url.getLast? = some '/' then
        -- a file requested with a trailing slash: no redirect to `../` when
        -- the root itself is the file (recent Go releases; earlier ones
        -- redirect here as well)
        if Base url = ['/'] ∨ Base url = ['.'] then
          .error "http: attempting to traverse a non-directory" 500
        else localRedirect r ("../".toList ++ Base url)
      else if d = .directory then
        -- redirect if the directory name doesn't end in a slash
        if url.getLast? ≠ some '/' then localRedirect r (Base url ++ ['/'])
        else
          -- use contents of index.html for directory, if present
          let index := trimSlash name ++ "/index.html".toList
          match osOpen disk (dirOpenName dir index) with
          | .ok .regular => .content (dirOpenName dir index)
          -- still a directory: it is listed
          | .ok .directory => .dirList (dirOpenName dir index)
          | .error _ => .dirList (dirOpenName dir name)
      else
        .content (dirOpenName dir name)

/-- Go `http.ServeFile(w, r, name)`. -/
def ServeFile (disk : Disk) (r : Request) (name : List Char) : Response :=
  if containsDotDot r.urlPath then
    -- ".." in the URL path is taken as an attempt to access arbitrary files
    .error "invalid URL path" 400
  else
    serveFile disk r (Split name).1 (Split name).2 false

/-- Go `http.FileServer(http.Dir(root)).ServeHTTP(w, r)`: a `/` is put in front
of a URL path that has none, and `serveFile` gets `path.Clean(upath)`. -/
def FileServer (disk : Disk) (root : List Char) (r : Request) : Response :=
  let upath := if r.urlPath.head? = some '/' then r.urlPath else '/' :: r.urlPath
  serveFile disk { r with urlPath := upath } root (Clean upath) true

/-- The answer to a request whose handler has the effects given: that of the
first call that answers. -/
def responseOf (disk : Disk) : List Effect → Option Response
  | [] => none
  | .stat _ :: rest => responseOf disk rest
  | .httpError error code :: _ => some (.error error code)
  | .serveFile r name :: _ => some (ServeFile disk r name)
  | .fileServer root r :: _ => some (FileServer disk root r)
  | .write body :: _ => some (.written body)

/-! ## The health check and the routers built by `run` -/

/-- Go `encoding/json` on a `map[string]bool` whose keys need no escaping (the
entries are given in key order, the order in which maps are encoded). -/
def jsonMarshalBoolMap (m : List (String × Bool)) : String :=
  "\x7b" ++ ",".intercalate
    (m.map fun kv => "\"" ++ kv.1 ++ "\":" ++ (if kv.2 then "true" else "false")) ++ "\x7d"

/-- The handler `run` registers at `/api/health`:
`json.NewEncoder(w).Encode(map[string]bool{"ok": true})`.  `Encode` writes the
encoding followed by a newline. -/
def healthHandler (_r : Request) : List Effect :=
  [.write (jsonMarshalBoolMap [("ok", true)] ++ "\n")]

/-- Go `func home(w http.ResponseWriter, r *http.Request)`. -/
def home (_r : Request) : List Effect :=
  [.write "WebSocket home"]

/-- The handlers that `run` registers. -/
inductive Handler where
  /-- The closure registered at `/api/health`. -/
  | health
  /-- A `spaHandler` value. -/
  | spa (h : spaHandler)
  /-- The function `home`. -/
  | home
  /-- The function `flutter`. -/
  | flutter
deriving DecidableEq, Repr

/-- How a `gorilla/mux` route built by `run` matches the URL path. -/
inductive Matcher where
  /-- `HandleFunc(tpl, ..)` with a template without variables: the whole path. -/
  | path (tpl : List Char)
  /-- `PathPrefix(tpl)`: the beginning of the path. -/
  | pathPrefix (tpl : List Char)
deriving DecidableEq, Repr

/-- One route of a router. -/
structure Route where
  /-- The matcher of the route. -/
  matcher : Matcher
  /-- The handler of the route. -/
  handler : Handler
deriving DecidableEq, Repr

/-- Whether a route matches a URL path. -/
def Matcher.matches : Matcher → List Char → Bool
  | .path tpl, p => decide (p = tpl)
  | .pathPrefix tpl, p => tpl.isPrefixOf p

/-- Route selection of `mux.Router` (`Router.Match`): the first registered
route that matches.  `Router.ServeHTTP` comes to it only with a URL path that is
already clean; any other it answers itself, with a redirect to the cleaned
path. -/
def routeMatch : List Route → List Char → Option Handler
  | [], _ => none
  | rt :: rest, p => if rt.matcher.matches p then some rt.handler else routeMatch rest p

/-- Go `type Required struct`. -/
structure Required where
  /-- Field `Dir`. -/
  Dir : List Char
  /-- Field `SpaHost`. -/
  SpaHost : String
  /-- Field `WsHost`. -/
  WsHost : String
deriving DecidableEq, Repr

/-- Go `type Config struct`. -/
structure Config where
  /-- Field `Required`. -/
  Required : Required
deriving DecidableEq, Repr

/-- An `http.Server` as `run` fills it in; the router is the list of its routes
in registration order, the timeouts are in seconds. -/
structure Server where
  /-- Field `Handler`. -/
  Handler : List Route
  /-- Field `Addr`. -/
  Addr : String
  /-- Field `WriteTimeout`. -/
  WriteTimeout : Nat
  /-- Field `ReadTimeout`. -/
  ReadTimeout : Nat
deriving DecidableEq, Repr

/-- The two servers on which `run` calls `ListenAndServe`. -/
structure Servers where
  /-- The asset server `srv`, started on its own goroutine. -/
  srv : Server
  /-- The relay server `ws`, started on the main goroutine. -/
  ws : Server
deriving DecidableEq, Repr

/-- What the configuration library hands to `run`. -/
structure Loaded where
  /-- The error of `v.ReadInConfig()`, if any. -/
  readErr : Option String
  /-- The error of `v.Unmarshal(&config)`, if any. -/
  unmarshalErr : Option String
  /-- The value `v.Unmarshal(&config)` stores. -/
  config : Config

/-- The fields that fail the `validate:"required"` tag: the empty strings. -/
def missingFields (c : Config) : List String :=
  (if c.Required.Dir = [] then ["Dir"] else []) ++
  (if c.Required.SpaHost = "" then ["SpaHost"] else []) ++
  (if c.Required.WsHost = "" then ["WsHost"] else [])

/-- Go `validate.Struct(config)` for the tags of `Config`: the error text, one
line per failing field, or `none`. -/
def validateStruct (c : Config) : Option String :=
  match missingFields c with
  | [] => none
  | fs => some ("\n".intercalate (fs.map fun f =>
      "Key: 'Config.Required." ++ f ++ "' Error:Field validation for '" ++ f ++
        "' failed on the 'required' tag"))

/-- Go `func run(logger *zap.SugaredLogger) error` up to the two
`ListenAndServe` calls: the error it returns to `main`, or the two servers it
starts. -/
def run (l : Loaded) : Except String Servers :=
  match l.readErr with
  | some e => .error ("fatal error reading config file: " ++ e)
  | none =>
    match l.unmarshalErr with
    | some e => .error ("fatal error unmarshalling config file: " ++ e)
    | none =>
      let config := l.config
      match validateStruct config with
      | some e => .error ("fatal error validating config file: " ++ e)
      | none =>
        let spa : spaHandler := { staticPath := "build".toList, indexPath := "index.html".toList }
        let spaRouter : List Route :=
          [⟨.path "/api/health".toList, .health⟩, ⟨.pathPrefix "/".toList, .spa spa⟩]
        let wsRouter : List Route :=
          [⟨.path "/".toList, .home⟩, ⟨.path "/flutter".toList, .flutter⟩]
        .ok {
          srv := { Handler := spaRouter, Addr := config.Required.SpaHost,
                   WriteTimeout := 15, ReadTimeout := 15 }
          ws := { Handler := wsRouter, Addr := config.Required.WsHost,
                  WriteTimeout := 15, ReadTimeout := 15 } }

/-- The static-asset handler among the routes of a router. -/
def spaOf : List Route → Option spaHandler
  | [] => none
  | ⟨_, .spa h⟩ :: _ => some h
  | _ :: rest => spaOf rest

/-! ## The WebSocket echo relay -/

/-- A WebSocket message: its type and its payload bytes. -/
structure Message where
  /-- The message type (`websocket.TextMessage`, `websocket.BinaryMessage`, ..). -/
  messageType : Int
  /-- The payload. -/
  payload : List Nat
deriving DecidableEq, Repr

/-- An upgraded connection as the relay sees it: what its calls return. -/
structure Conn where
  /-- The result of the `k`-th call `c.ReadMessage()`, counting from 0. -/
  ReadMessage : Nat → Except String Message
  /-- The error, if any, of the call `c.WriteMessage(mt, message)` made in
  iteration `k` of the loop. -/
  WriteMessage : Nat → Message → Option String

/-- What `flutter` does, in program order. -/
inductive WsEvent where
  /-- `log.Print("upgrade:", err)`. -/
  | logUpgrade (err : String)
  /-- `c.ReadMessage()` returned a message. -/
  | readOk (m : Message)
  /-- `c.ReadMessage()` returned an error. -/
  | readErr (err : String)
  /-- `log.Println("read:", err)`. -/
  | logRead (err : String)
  /-- `log.Printf("recv: %s", message)`. -/
  | logRecv (payload : List Nat)
  /-- `c.WriteMessage(mt, message)` returned `nil`. -/
  | writeOk (m : Message)
  /-- `c.WriteMessage(mt, message)` returned an error. -/
  | writeErr (m : Message) (err : String)
  /-- `log.Println("write:", err)`. -/
  | logWrite (err : String)
  /-- The deferred `c.Close()`. -/
  | close
deriving DecidableEq, Repr

/-- The loop `for { ... }` of `flutter` from its iteration `k` on, run for at
most `fuel` iterations: the events so far, and whether the loop has been left
(`break`).  The loop has no other exit, so on a connection that never fails it
runs forever and every bound finds it still running. -/
def relayLoop (c : Conn) : Nat → Nat → List WsEvent × Bool
  | 0, _ => ([], false)
  | fuel + 1, k =>
    match c.ReadMessage k with
    | .error err => ([.readErr err, .logRead err], true)
    | .ok m =>
      match c.WriteMessage k m with
      | some err => ([.readOk m, .logRecv m.payload, .writeErr m err, .logWrite err], true)
      | none =>
        let r := relayLoop c fuel (k + 1)
        (.readOk m :: .logRecv m.payload :: .writeOk m :: r.1, r.2)

/-- Go `func flutter(w http.ResponseWriter, r *http.Request)`, given the result
of `upgrader.Upgrade(w, r, nil)`: the events of the first `fuel` loop iterations
and whether the function has returned.  The deferred `c.Close()` runs when the
function returns. -/
def flutter (upgrade : Except String Conn) (fuel : Nat) : List WsEvent × Bool :=
  match upgrade with
  | .error err => ([.logUpgrade err], true)
  | .ok c =>
    let r := relayLoop c fuel 0
    if r.2 then (r.1 ++ [.close], true) else (r.1, false)

/-- The messages received, in order. -/
def received : List WsEvent → List Message
  | [] => []
  | .readOk m :: rest => m :: received rest
  | _ :: rest => received rest

/-- The messages sent, in order. -/
def sent : List WsEvent → List Message
  | [] => []
  | .writeOk m :: rest => m :: sent rest
  | _ :: rest => sent rest

/-- Whether an event is a call on the connection that receives or sends. -/
def WsEvent.isTransfer : WsEvent → Bool
  | .readOk _ => true
  | .readErr _ => true
  | .writeOk _ => true
  | .writeErr _ _ => true
  | _ => false

/-- Whether an event is a failed receive or a failed send. -/
def WsEvent.isFailure : WsEvent → Bool
  | .readErr _ => true
  | .writeErr _ _ => true
  | _ => false

/-! ## Vocabulary of the proofs -/

/-- A path element that `Clean` keeps: non-empty, without separator, neither `.` nor `..`. -/
def NormalElem (e : List Char) : Prop :=
  e ≠ [] ∧ '/' ∉ e ∧ e ≠ ['.'] ∧ e ≠ ['.', '.']

/-- The text `/e1/e2/.../en`. -/
def segs : List (List Char) → List Char
  | [] => []
  | e :: es => '/' :: (e ++ segs es)

/-- The buffer after the elements `es` have been copied onto `out`. -/
def pushAll (r : Bool) : List Char → List (List Char) → List Char
  | out, [] => out
  | out, e :: es => pushAll r (e.reverse ++ addSlash r out) es

/-- The buffer of a rooted path whose kept elements are `es`, last byte first. -/
def rootedOut (es : List (List Char)) : List Char :=
  if es = [] then ['/'] else (segs es).reverse

/-- The cleaned rooted path with kept elements `es`: `/` or `/e1/.../en`. -/
def rootedPath (es : List (List Char)) : List Char :=
  if es = [] then ['/'] else segs es

/-- The state in which the loop of `Clean` ends on a non-empty path. -/
def cleanState (path : List Char) : List Char × Nat :=
  match path with
  | [] => ([], 0)
  | c :: rest =>
    if c = '/' then cleanLoop true false rest ['/'] 1
    else cleanLoop false false (c :: rest) [] 0

/-- The transfers of a relay that echoes `ms`: each message is received and
then sent, one after the other. -/
def echoTransfers : List Message → List WsEvent
  | [] => []
  | m :: ms => .readOk m :: .writeOk m :: echoTransfers ms

/-- The events after the first failed receive or send, if there is one. -/
def afterFailure : List WsEvent → Option (List WsEvent)
  | [] => none
  | ev :: rest => if ev.isFailure then some rest else afterFailure rest

/-- Iteration `k` of the relay loop fails: the receive fails, or the send of the
message received fails. -/
def failsAt (c : Conn) (k : Nat) : Prop :=
  (∃ err, c.ReadMessage k = .error err) ∨
  (∃ m err, c.ReadMessage k = .ok m ∧ c.WriteMessage k m = some err)

/-- The buffer does not begin with a separator (its first byte is the last of
the list). -/
def NoLeadSlash (out : List Char) : Prop :=
  out.getLast? ≠ some '/'

/-- Inputs and results of `Clean` as the standard library's own test table
lists them. -/
def cleanTests : List (String × String) := [
  ("abc", "abc"), ("abc/def", "abc/def"), ("a/b/c", "a/b/c"), (".", "."), ("..", ".."),
  ("../..", "../.."), ("../../abc", "../../abc"), ("/abc", "/abc"), ("/", "/"),
  ("", "."),
  ("abc/", "abc"), ("abc/def/", "abc/def"), ("a/b/c/", "a/b/c"), ("./", "."), ("../", ".."),
  ("../../", "../.."), ("/abc/", "/abc"),
  ("abc//def//ghi", "abc/def/ghi"), ("abc//", "abc"),
  ("abc/./def", "abc/def"), ("/./abc/def", "/abc/def"), ("abc/.", "abc"),
  ("abc/def/ghi/../jkl", "abc/def/jkl"), ("abc/def/../ghi/../jkl", "abc/jkl"),
  ("abc/def/..", "abc"), ("abc/def/../..", "."), ("/abc/def/../..", "/"),
  ("abc/def/../../..", ".."), ("/abc/def/../../..", "/"),
  ("abc/def/../../../ghi/jkl/../../../mno", "../../mno"), ("/../abc", "/abc"),
  ("abc/./../def", "def"), ("abc//./../def", "def"), ("abc/../../././../def", "../../def")]

/-- Inputs and results of `Join` as the standard library's own test table lists
them. -/
def joinTests : List (List String × String) := [
  ([], ""), ([""], ""), (["/"], "/"), (["a"], "a"), (["a", "b"], "a/b"), (["a", ""], "a"),
  (["", "b"], "b"), (["/", "a"], "/a"), (["/", "a/b"], "/a/b"), (["/", ""], "/"),
  (["/a", "b"], "/a/b"), (["a", "/b"], "a/b"), (["/a", "/b"], "/a/b"), (["a/", "b"], "a/b"),
  (["a/", ""], "a"), (["", ""], "")]

/-! ## Concrete inputs -/

/-- The handler `run` constructs. -/
def buildHandler : spaHandler :=
  { staticPath := "build".toList, indexPath := "index.html".toList }

/-- A handler rooted at `/srv/build`. -/
def srvHandler : spaHandler :=
  { staticPath := "/srv/build".toList, indexPath := "index.html".toList }

/-- The files of a built application under `build`. -/
def spaFiles : List (List Char × FileKind) :=
  [("build".toList, .directory), ("build/index.html".toList, .regular),
   ("build/static".toList, .directory), ("build/static/app.js".toList, .regular)]

/-- A disk that holds `spaFiles` and nothing else. -/
def spaDisk : Disk :=
  { openFile := fun name =>
      match spaFiles.lookup name with
      | some kind => .ok kind
      | none => .error .notExist }

/-- A process in `/home/app` on the disk `spaDisk`. -/
def spaEnv : Env :=
  { getwd := .ok "/home/app".toList
    stat := fun name =>
      match spaFiles.lookup name with
      | some _ => none
      | none => some ⟨true, "stat " ++ String.mk name ++ ": no such file or directory"⟩ }

/-- A process in `/home/app` on a disk where no file exists. -/
def emptyDiskEnv : Env :=
  { getwd := .ok "/home/app".toList
    stat := fun name => some ⟨true, "stat " ++ String.mk name ++ ": no such file or directory"⟩ }

/-- A process in `/home/app` on a disk where every file exists. -/
def fullDiskEnv : Env :=
  { getwd := .ok "/home/app".toList, stat := fun _ => none }

/-- A process whose working directory cannot be determined. -/
def noCwdEnv : Env :=
  { getwd := .error "getwd: no such file or directory", stat := fun _ => none }

/-- A `GET` request for a URL path. -/
def getRequest (urlPath : List Char) : Request :=
  { method := "GET", urlPath := urlPath, rawQuery := "", header := [], body := [] }

/-- The URL path `/a<NUL>b`. -/
def nulPath : List Char := ['/', 'a', Char.ofNat 0, 'b']

/-- A configuration that asks for the static-asset directory `public`. -/
def publicLoaded : Loaded :=
  { readErr := none, unmarshalErr := none
    config := ⟨⟨"public".toList, "127.0.0.1:8000", "127.0.0.1:8001"⟩⟩ }

/-- Two messages. -/
def twoMessages : List Message := [⟨1, [104, 105]⟩, ⟨2, [0, 255]⟩]

/-- A connection that delivers `twoMessages` and is then closed by the peer;
every send succeeds. -/
def twoThenClosed : Conn :=
  { ReadMessage := fun k =>
      match twoMessages[k]? with
      | some m => .ok m
      | none => .error "websocket: close 1000 (normal)"
    WriteMessage := fun _ _ => none }

/-- A connection on which the first send fails. -/
def brokenWrite : Conn :=
  { ReadMessage := fun _ => .ok ⟨1, [104, 105]⟩
    WriteMessage := fun _ _ => some "write: broken pipe" }

/-! ## Lemmas on `Clean` -/

/-- The embedding of `Clean` computes the results of the standard library's
test table. -/
theorem Clean_cleanTests : cleanTests.all (fun t => Clean t.1.toList = t.2.toList) = true := by
  decide

/-- The embedding of `Join` computes the results of the standard library's test
table. -/
theorem Join_joinTests :
    joinTests.all (fun t => Join (t.1.map String.toList) = t.2.toList) = true := by
  decide

theorem cleanLoop_nil (r m : Bool) (out : List Char) (dd : Nat) :
    cleanLoop r m [] out dd = (out, dd) := by
  cases m <;> rfl

theorem cleanLoop_true_cons (r : Bool) (c : Char) (rest out : List Char) (dd : Nat) :
    cleanLoop r true (c :: rest) out dd =
      if c = '/' then cleanLoop r false rest out dd
      else cleanLoop r true rest (c :: out) dd := by
  rfl

theorem cleanLoop_false_cons (r : Bool) (c : Char) (rest out : List Char) (dd : Nat) :
    cleanLoop r false (c :: rest) out dd =
    if c = '/' then
      cleanLoop r false rest out dd
    else if c = '.' ∧ (rest = [] ∨ rest.head? = some '/') then
      cleanLoop r false rest out dd
    else if c = '.' ∧ rest.head? = some '.' ∧ (rest.tail = [] ∨ rest.tail.head? = some '/') then
      match rest with
      | [] => (out, dd)
      | _ :: rest2 =>
        if dd < out.length then
          cleanLoop r false rest2 (backtrack dd out) dd
        else if !r then
          cleanLoop r false rest2
            ('.' :: '.' :: (if 0 < out.length then '/' :: out else out))
            ((if 0 < out.length then '/' :: out else out).length + 2)
        else
          cleanLoop r false rest2 out dd
    else
      cleanLoop r true rest (c :: addSlash r out) dd := by
  cases rest <;> rfl


theorem cleanLoop_slash (r m : Bool) (rest out : List Char) (dd : Nat) :
    cleanLoop r m ('/' :: rest) out dd = cleanLoop r false rest out dd := by
  cases m
  · rw [cleanLoop_false_cons, if_pos rfl]
  · rw [cleanLoop_true_cons, if_pos rfl]

theorem boundary_cases {rest : List Char} (h : rest = [] ∨ rest.head? = some '/') :
    rest = [] ∨ ∃ t, rest = '/' :: t := by
  rcases h with h | h
  · exact Or.inl h
  · cases rest with
    | nil => exact Or.inl rfl
    | cons c t =>
      simp at h
      exact Or.inr ⟨t, by rw [h]⟩

theorem cleanLoop_copy (r : Bool) (e rest : List Char) (he : '/' ∉ e)
    (hr : rest = [] ∨ rest.head? = some '/') (out : List Char) (dd : Nat) :
    cleanLoop r true (e ++ rest) out dd = cleanLoop r false rest (e.reverse ++ out) dd := by
  induction e generalizing out with
  | nil =>
    rcases boundary_cases hr with h | ⟨t, h⟩
    · subst h; simp [cleanLoop_nil]
    · subst h; simp [cleanLoop_slash]
  | cons c e ih =>
    have hc : c ≠ '/' := fun h => he (by simp [h])
    have he2 : '/' ∉ e := fun h => he (by simp [h])
    rw [List.cons_append, cleanLoop_true_cons, if_neg hc, ih he2]
    simp

theorem cleanLoop_elem (r : Bool) (e rest : List Char) (he : NormalElem e)
    (hr : rest = [] ∨ rest.head? = some '/') (out : List Char) (dd : Nat) :
    cleanLoop r false (e ++ rest) out dd
      = cleanLoop r false rest (e.reverse ++ addSlash r out) dd := by
  obtain ⟨hne, hs, hd, hdd⟩ := he
  cases e with
  | nil => exact absurd rfl hne
  | cons c e =>
    have hc : c ≠ '/' := fun h => hs (by simp [h])
    have he2 : '/' ∉ e := fun h => hs (by simp [h])
    have h1 : ¬ (c = '.' ∧ (e ++ rest = [] ∨ (e ++ rest).head? = some '/')) := by
      rintro ⟨hc1, h⟩
      cases e with
      | nil => exact hd (by rw [hc1])
      | cons d e =>
        simp at h
        exact he2 (by simp [h])
    have h2 : ¬ (c = '.' ∧ (e ++ rest).head? = some '.' ∧
        ((e ++ rest).tail = [] ∨ (e ++ rest).tail.head? = some '/')) := by
      rintro ⟨hc1, h, h3⟩
      cases e with
      | nil =>
        rcases boundary_cases hr with h4 | ⟨t, h4⟩
        · subst h4; simp at h
        · subst h4; simp at h
      | cons d e =>
        simp at h
        cases e with
        | nil => exact hdd (by rw [hc1, h])
        | cons d2 e =>
          simp at h3
          exact he2 (by simp [h3])
    rw [List.cons_append, cleanLoop_false_cons, if_neg hc, if_neg h1, if_neg h2,
      cleanLoop_copy r e rest he2 hr]
    simp

theorem segs_boundary (es : List (List Char)) :
    segs es = [] ∨ (segs es).head? = some '/' := by
  cases es with
  | nil => exact Or.inl rfl
  | cons e es => exact Or.inr rfl

theorem cleanLoop_segs (r : Bool) (es : List (List Char)) (hes : ∀ e ∈ es, NormalElem e)
    (out : List Char) (dd : Nat) :
    cleanLoop r false (segs es) out dd = (pushAll r out es, dd) := by
  induction es generalizing out with
  | nil => simp [segs, pushAll, cleanLoop_nil]
  | cons e es ih =>
    have h1 : NormalElem e := hes e (by simp)
    have h2 : ∀ x ∈ es, NormalElem x := fun x hx => hes x (by simp [hx])
    rw [segs, cleanLoop_slash, cleanLoop_elem r e (segs es) h1 (segs_boundary es), ih h2]
    rfl

theorem segs_append (es : List (List Char)) (e : List Char) :
    segs (es ++ [e]) = segs es ++ '/' :: e := by
  induction es with
  | nil => simp [segs]
  | cons x es ih => simp [segs, ih]

theorem pushAll_of_slash (r : Bool) (es : List (List Char)) (out : List Char)
    (h1 : out ≠ []) (h2 : r = true → out.length ≠ 1) :
    pushAll r out es = (segs es).reverse ++ out := by
  induction es generalizing out with
  | nil => simp [segs, pushAll]
  | cons e es ih =>
    have hA : addSlash r out = '/' :: out := by
      unfold addSlash
      have hl : out.length ≠ 0 := by simpa using h1
      cases r
      · simp [hl]
      · simp [h2 rfl]
    rw [pushAll, hA, ih]
    · simp [segs]
    · simp
    · intro _
      have hl : 0 < out.length := List.length_pos.mpr h1
      simp only [List.length_append, List.length_reverse, List.length_cons]
      omega


theorem exists_elem_split (l : List Char) :
    ∃ e rest, l = e ++ rest ∧ '/' ∉ e ∧ (rest = [] ∨ rest.head? = some '/') := by
  induction l with
  | nil => exact ⟨[], [], rfl, by simp, Or.inl rfl⟩
  | cons c l ih =>
    by_cases hc : c = '/'
    · exact ⟨[], c :: l, rfl, by simp, Or.inr (by simp [hc])⟩
    · obtain ⟨e, rest, h1, h2, h3⟩ := ih
      refine ⟨c :: e, rest, by simp [h1], ?_, h3⟩
      simp only [List.mem_cons, not_or]
      exact ⟨fun h => hc h.symm, h2⟩

/-- The first step of the "real path element" case in terms of whole elements:
an input that starts neither a separator nor a `.` or `..` element starts a
normal element. -/
theorem exists_normal_split (c : Char) (rest : List Char) (hc : c ≠ '/')
    (h1 : ¬ (c = '.' ∧ (rest = [] ∨ rest.head? = some '/')))
    (h2 : ¬ (c = '.' ∧ rest.head? = some '.' ∧ (rest.tail = [] ∨ rest.tail.head? = some '/'))) :
    ∃ e rest2, c :: rest = e ++ rest2 ∧ NormalElem e ∧
      (rest2 = [] ∨ rest2.head? = some '/') ∧ rest2.length ≤ rest.length := by
  obtain ⟨e, rest2, h3, h4, h5⟩ := exists_elem_split rest
  refine ⟨c :: e, rest2, by simp [h3], ⟨by simp, ?_, ?_, ?_⟩, h5, ?_⟩
  · simp only [List.mem_cons, not_or]
    exact ⟨fun h => hc h.symm, h4⟩
  · intro h
    simp only [List.cons.injEq] at h
    obtain ⟨hc1, he⟩ := h
    subst he
    exact h1 ⟨hc1, by simpa [h3] using h5⟩
  · intro h
    simp only [List.cons.injEq] at h
    obtain ⟨hc1, he⟩ := h
    subst he
    exact h2 ⟨hc1, by simp [h3], by simpa [h3] using h5⟩
  · rw [h3]; simp

theorem segs_length_two (x : List Char) (xs : List (List Char)) (hx : x ≠ []) :
    2 ≤ (segs (x :: xs)).length := by
  have hl : 0 < x.length := List.length_pos.mpr hx
  simp only [segs, List.length_cons, List.length_append]
  omega

theorem rootedOut_snoc (es : List (List Char)) (hes : ∀ x ∈ es, NormalElem x) (e : List Char) :
    rootedOut (es ++ [e]) = e.reverse ++ addSlash true (rootedOut es) := by
  unfold rootedOut addSlash
  by_cases h : es = []
  · subst h; simp [segs]
  · have hl : (segs es).length ≠ 1 := by
      cases es with
      | nil => exact absurd rfl h
      | cons x xs =>
        have := segs_length_two x xs (hes x (by simp)).1
        omega
    simp [h, segs_append, hl]

theorem backtrack_elem (dd : Nat) (x tl : List Char) (hx : '/' ∉ x) (hne : x ≠ [])
    (hdd : dd ≤ tl.length) : backtrack dd (x ++ '/' :: tl) = tl := by
  induction x with
  | nil => exact absurd rfl hne
  | cons c x ih =>
    have hc : c ≠ '/' := fun h => hx (by simp [h])
    have hx2 : '/' ∉ x := fun h => hx (by simp [h])
    have hlen : dd < (x ++ '/' :: tl).length := by
      simp only [List.length_append, List.length_cons]; omega
    rw [List.cons_append, backtrack, if_pos ⟨hlen, hc⟩]
    cases x with
    | nil =>
      have h0 : ¬ (dd < tl.length ∧ '/' ≠ '/') := fun h => h.2 rfl
      rw [List.nil_append, backtrack, if_neg h0]
    | cons d x => exact ih hx2 (by simp)

theorem backtrack_first (x : List Char) (hx : '/' ∉ x) (hne : x ≠ []) :
    backtrack 1 (x ++ ['/']) = ['/'] := by
  induction x with
  | nil => exact absurd rfl hne
  | cons c x ih =>
    have hx2 : '/' ∉ x := fun h => hx (by simp [h])
    have hc : c ≠ '/' := fun h => hx (by simp [h])
    cases x with
    | nil =>
      have h0 : ¬ (1 < ([] ++ ['/']).length ∧ c ≠ '/') := fun h => by simp at h
      rw [List.cons_append, backtrack, if_neg h0, List.nil_append]
    | cons d x =>
      have hlen : 1 < ((d :: x) ++ ['/']).length := by
        simp only [List.length_append, List.length_cons]; omega
      rw [List.cons_append, backtrack, if_pos ⟨hlen, hc⟩]
      exact ih hx2 (by simp)

theorem backtrack_rootedOut (es : List (List Char)) (hes : ∀ x ∈ es, NormalElem x)
    (e : List Char) (he : NormalElem e) :
    backtrack 1 (rootedOut (es ++ [e])) = rootedOut es := by
  have hr : e.reverse ≠ [] := by simpa using he.1
  have hs : '/' ∉ e.reverse := by simpa using he.2.1
  cases es with
  | nil =>
    have : rootedOut ([] ++ [e]) = e.reverse ++ ['/'] := by simp [rootedOut, segs]
    rw [this, backtrack_first _ hs hr]
    rfl
  | cons x xs =>
    have h2 := segs_length_two x xs (hes x (by simp)).1
    have : rootedOut (x :: xs ++ [e]) = e.reverse ++ '/' :: (segs (x :: xs)).reverse := by
      have h3 : x :: xs ++ [e] ≠ [] := by simp
      rw [rootedOut, if_neg h3, segs_append]
      simp
    rw [this, backtrack_elem 1 _ _ hs hr (by simp only [List.length_reverse]; omega)]
    simp [rootedOut]

theorem rootedOut_length (es : List (List Char)) (hes : ∀ x ∈ es, NormalElem x) :
    1 < (rootedOut es).length ↔ es ≠ [] := by
  cases es with
  | nil => simp [rootedOut]
  | cons x xs =>
    have h2 := segs_length_two x xs (hes x (by simp)).1
    simp only [rootedOut, List.length_reverse]
    simp
    omega

/-- Loop invariant of `Clean` on a rooted path: started on the buffer of a
rooted clean path, the loop ends on the buffer of a rooted clean path. -/
theorem cleanLoop_rooted (n : Nat) : ∀ (path : List Char), path.length ≤ n →
    ∀ (es : List (List Char)), (∀ e ∈ es, NormalElem e) →
    ∃ es2, (∀ e ∈ es2, NormalElem e) ∧
      cleanLoop true false path (rootedOut es) 1 = (rootedOut es2, 1) := by
  induction n with
  | zero =>
    intro path hp es hes
    have : path = [] := List.length_eq_zero.mp (Nat.le_zero.mp hp)
    subst this
    exact ⟨es, hes, cleanLoop_nil _ _ _ _⟩
  | succ n ih =>
    intro path hp es hes
    cases path with
    | nil => exact ⟨es, hes, cleanLoop_nil _ _ _ _⟩
    | cons c rest =>
      have hrest : rest.length ≤ n := by simpa using hp
      rw [cleanLoop_false_cons]
      by_cases hc : c = '/'
      · rw [if_pos hc]; exact ih rest hrest es hes
      · rw [if_neg hc]
        by_cases h1 : c = '.' ∧ (rest = [] ∨ rest.head? = some '/')
        · rw [if_pos h1]; exact ih rest hrest es hes
        · rw [if_neg h1]
          by_cases h2 : c = '.' ∧ rest.head? = some '.' ∧
              (rest.tail = [] ∨ rest.tail.head? = some '/')
          · rw [if_pos h2]
            cases rest with
            | nil => exact ⟨es, hes, rfl⟩
            | cons d rest2 =>
              have hrest2 : rest2.length ≤ n := by
                simp only [List.length_cons] at hrest; omega
              by_cases h3 : 1 < (rootedOut es).length
              · simp only [if_pos h3]
                have hne : es ≠ [] := (rootedOut_length es hes).mp h3
                obtain ⟨es0, e, rfl⟩ := (List.eq_nil_or_concat es).resolve_left hne
                rw [List.concat_eq_append] at hes h3 hne ⊢
                have hes0 : ∀ x ∈ es0, NormalElem x := fun x hx => hes x (by simp [hx])
                rw [backtrack_rootedOut es0 hes0 e (hes e (by simp))]
                exact ih rest2 hrest2 es0 hes0
              · simp only [if_neg h3]
                exact ih rest2 hrest2 es hes
          · rw [if_neg h2]
            obtain ⟨e, rest2, h3, h4, h5, h6⟩ := exists_normal_split c rest hc h1 h2
            have key := cleanLoop_elem true e rest2 h4 h5 (rootedOut es) 1
            rw [← h3, cleanLoop_false_cons, if_neg hc, if_neg h1, if_neg h2] at key
            rw [key, ← rootedOut_snoc es hes e]
            refine ih rest2 (le_trans h6 hrest) (es ++ [e]) ?_
            intro x hx
            rcases List.mem_append.mp hx with hx | hx
            · exact hes x hx
            · rw [List.mem_singleton.mp hx]; exact h4


theorem boundary_append (rest b : List Char) :
    (rest ++ '/' :: b = [] ∨ (rest ++ '/' :: b).head? = some '/') ↔
      (rest = [] ∨ rest.head? = some '/') := by
  cases rest <;> simp

/-- Reading a separator after `a` continues from the state in which the loop
leaves `a`: the loop never looks further ahead than the next separator. -/
theorem cleanLoop_append_slash (r : Bool) (n : Nat) : ∀ (a : List Char), a.length ≤ n →
    ∀ (m : Bool) (b out : List Char) (dd : Nat),
    cleanLoop r m (a ++ '/' :: b) out dd
      = cleanLoop r false b (cleanLoop r m a out dd).1 (cleanLoop r m a out dd).2 := by
  induction n with
  | zero =>
    intro a ha m b out dd
    have : a = [] := List.length_eq_zero.mp (Nat.le_zero.mp ha)
    subst this
    rw [List.nil_append, cleanLoop_slash, cleanLoop_nil]
  | succ n ih =>
    intro a ha m b out dd
    cases a with
    | nil => rw [List.nil_append, cleanLoop_slash, cleanLoop_nil]
    | cons c rest =>
      have hrest : rest.length ≤ n := by simpa using ha
      cases m with
      | true =>
        rw [List.cons_append, cleanLoop_true_cons, cleanLoop_true_cons]
        by_cases hc : c = '/'
        · rw [if_pos hc, if_pos hc]; exact ih rest hrest _ _ _ _
        · rw [if_neg hc, if_neg hc]; exact ih rest hrest _ _ _ _
      | false =>
        rw [List.cons_append, cleanLoop_false_cons, cleanLoop_false_cons]
        by_cases hc : c = '/'
        · rw [if_pos hc, if_pos hc]; exact ih rest hrest _ _ _ _
        · rw [if_neg hc, if_neg hc]
          simp only [boundary_append]
          by_cases h1 : c = '.' ∧ (rest = [] ∨ rest.head? = some '/')
          · rw [if_pos h1, if_pos h1]; exact ih rest hrest _ _ _ _
          · rw [if_neg h1, if_neg h1]
            cases rest with
            | nil =>
              have h2 : ¬ (c = '.' ∧ ([] ++ '/' :: b).head? = some '.' ∧
                  (([] ++ '/' :: b).tail = [] ∨ ([] ++ '/' :: b).tail.head? = some '/')) := by
                simp
              have h3 : ¬ (c = '.' ∧ ([] : List Char).head? = some '.' ∧
                  (([] : List Char).tail = [] ∨ ([] : List Char).tail.head? = some '/')) := by
                simp
              rw [if_neg h2, if_neg h3]
              exact ih [] (by simp) _ _ _ _
            | cons d rest2 =>
              have hrest2 : rest2.length ≤ n := by
                simp only [List.length_cons] at hrest; omega
              simp only [List.cons_append, List.tail_cons, List.head?_cons, boundary_append]
              by_cases h2 : c = '.' ∧ some d = some '.' ∧
                  (rest2 = [] ∨ rest2.head? = some '/')
              · rw [if_pos h2, if_pos h2]
                by_cases h3 : dd < out.length
                · simp only [if_pos h3]; exact ih rest2 hrest2 _ _ _ _
                · simp only [if_neg h3]
                  cases r with
                  | true => exact ih rest2 hrest2 _ _ _ _
                  | false => exact ih rest2 hrest2 _ _ _ _
              · rw [if_neg h2, if_neg h2]
                exact ih (d :: rest2) hrest _ _ _ _


theorem rootedOut_reverse (es : List (List Char)) : (rootedOut es).reverse = rootedPath es := by
  unfold rootedOut rootedPath
  by_cases h : es = [] <;> simp [h]

theorem rootedOut_ne_nil (es : List (List Char)) : (rootedOut es).length ≠ 0 := by
  unfold rootedOut
  cases es with
  | nil => simp
  | cons e es => simp [segs]

/-- `Clean` of a path that starts with the separator is `/` or `/e1/.../en`
with every `ei` a normal element. -/
theorem Clean_rooted_form (t : List Char) :
    ∃ es, (∀ e ∈ es, NormalElem e) ∧ Clean ('/' :: t) = rootedPath es := by
  obtain ⟨es, hes, h⟩ := cleanLoop_rooted t.length t (le_refl _) [] (by simp)
  refine ⟨es, hes, ?_⟩
  have h0 : rootedOut [] = ['/'] := rfl
  rw [h0] at h
  simp only [Clean, if_true, h, if_neg (rootedOut_ne_nil es), rootedOut_reverse]

theorem pushAll_rooted (es : List (List Char)) (hes : ∀ e ∈ es, NormalElem e) :
    pushAll true ['/'] es = rootedOut es := by
  cases es with
  | nil => rfl
  | cons e es =>
    have he : e ≠ [] := (hes e (by simp)).1
    have hl : 0 < e.length := List.length_pos.mpr he
    have h1 : addSlash true ['/'] = ['/'] := rfl
    rw [pushAll, h1, pushAll_of_slash]
    · simp [rootedOut, segs]
    · simp
    · intro _
      simp only [List.length_append, List.length_reverse, List.length_cons, List.length_nil]
      omega

theorem cleanLoop_rooted_segs (es : List (List Char)) (hes : ∀ e ∈ es, NormalElem e) :
    cleanLoop true false (segs es) ['/'] 1 = (rootedOut es, 1) := by
  rw [cleanLoop_segs true es hes, pushAll_rooted es hes]

/-- `Clean` fixes every cleaned rooted path, also behind one more separator. -/
theorem Clean_slash_rootedPath (es : List (List Char)) (hes : ∀ e ∈ es, NormalElem e) :
    Clean ('/' :: rootedPath es) = rootedPath es := by
  have h : cleanLoop true false (rootedPath es) ['/'] 1 = (rootedOut es, 1) := by
    unfold rootedPath
    by_cases h0 : es = []
    · subst h0; rfl
    · rw [if_neg h0]; exact cleanLoop_rooted_segs es hes
  simp only [Clean, if_true, h, if_neg (rootedOut_ne_nil es), rootedOut_reverse]

theorem Clean_rootedPath (es : List (List Char)) (hes : ∀ e ∈ es, NormalElem e) :
    Clean (rootedPath es) = rootedPath es := by
  have h := Clean_slash_rootedPath es hes
  unfold rootedPath at h ⊢
  by_cases h0 : es = []
  · subst h0; rfl
  · rw [if_neg h0] at h ⊢
    cases es with
    | nil => exact absurd rfl h0
    | cons e es =>
      have h2 : cleanLoop true false (e ++ segs es) ['/'] 1 =
          cleanLoop true false (segs (e :: es)) ['/'] 1 := by
        rw [segs, cleanLoop_slash]
      have h3 : Clean ('/' :: (e ++ segs es)) = Clean ('/' :: segs (e :: es)) := by
        simp only [Clean, if_true, h2]
      show Clean ('/' :: (e ++ segs es)) = '/' :: (e ++ segs es)
      rw [h3, h]
      rfl

theorem Clean_eq_cleanState (path : List Char) :
    Clean path = if (cleanState path).1.length = 0 then ['.'] else (cleanState path).1.reverse := by
  cases path with
  | nil => rfl
  | cons c rest => rfl

theorem cleanState_append_slash (a b : List Char) (ha : a ≠ []) :
    cleanState (a ++ '/' :: b)
      = cleanLoop (IsAbs a) false b (cleanState a).1 (cleanState a).2 := by
  cases a with
  | nil => exact absurd rfl ha
  | cons c rest =>
    by_cases hc : c = '/'
    · subst hc
      simp only [List.cons_append, cleanState, if_true, IsAbs, List.head?_cons, decide_True]
      exact cleanLoop_append_slash true rest.length rest (le_refl _) false b _ _
    · have h1 : IsAbs (c :: rest) = false := by simp [IsAbs, hc]
      rw [h1]
      simp only [List.cons_append, cleanState, if_neg hc]
      exact cleanLoop_append_slash false _ (c :: rest) (le_refl _) false b _ _

/-- Joining a cleaned rooted path onto a cleaned directory appends its
elements: nothing of the directory is removed. -/
theorem Clean_append_rootedPath (root : List Char) (hne : root ≠ []) (hclean : Clean root = root)
    (hdot : root ≠ ['.']) (hroot : root ≠ ['/'])
    (es : List (List Char)) (hes : ∀ e ∈ es, NormalElem e) :
    Clean (root ++ '/' :: rootedPath es) = root ++ segs es := by
  have h1 := Clean_eq_cleanState root
  rw [hclean] at h1
  have hlen : (cleanState root).1.length ≠ 0 := by
    intro h0
    rw [if_pos h0] at h1
    exact hdot h1
  rw [if_neg hlen] at h1
  have hout : (cleanState root).1 = root.reverse := by
    have h2 := congrArg List.reverse h1
    rw [List.reverse_reverse] at h2
    exact h2.symm
  have hfin : cleanState (root ++ '/' :: rootedPath es)
      = ((segs es).reverse ++ root.reverse, (cleanState root).2) := by
    rw [cleanState_append_slash root _ hne, hout]
    unfold rootedPath
    by_cases h0 : es = []
    · subst h0
      rw [if_pos rfl, cleanLoop_slash, cleanLoop_nil]
      simp [segs]
    · rw [if_neg h0, cleanLoop_segs _ es hes, pushAll_of_slash]
      · simpa using hne
      · intro hr
        simp only [List.length_reverse]
        intro hl
        cases root with
        | nil => exact hne rfl
        | cons c rest =>
          have : rest = [] := by
            simp only [List.length_cons] at hl
            exact List.length_eq_zero.mp (by omega)
          subst this
          simp only [IsAbs, List.head?_cons, decide_eq_true_eq, Option.some.injEq] at hr
          exact hroot (by rw [hr])
  rw [Clean_eq_cleanState, hfin]
  have : ((segs es).reverse ++ root.reverse).length ≠ 0 := by
    have := List.length_pos.mpr hne
    simp only [List.length_append, List.length_reverse]
    omega
  rw [if_neg this]
  simp

theorem splitOn_segs (e : List Char) (es : List (List Char))
    (hes : ∀ x ∈ e :: es, '/' ∉ x) :
    (e ++ segs es).splitOn '/' = e :: es := by
  induction es generalizing e with
  | nil =>
    have h : ∀ x ∈ e, ¬ (x == '/') = true := by
      intro x hx hx2
      rw [beq_iff_eq] at hx2
      exact hes e (by simp) (hx2 ▸ hx)
    simpa [segs, List.splitOn] using List.splitOnP_eq_single (· == '/') e h
  | cons e2 es ih =>
    have h : ∀ x ∈ e, ¬ (x == '/') = true := by
      intro x hx hx2
      rw [beq_iff_eq] at hx2
      exact hes e (by simp) (hx2 ▸ hx)
    have h2 := ih e2 (fun x hx => hes x (by simp [List.mem_cons.mp hx]))
    rw [segs, List.splitOn, List.splitOnP_first (· == '/') e h '/' (by rfl)]
    rw [List.splitOn] at h2
    rw [h2]

theorem noLeadSlash_cons (c : Char) (out : List Char) (hc : c ≠ '/') (h : NoLeadSlash out) :
    NoLeadSlash (c :: out) := by
  unfold NoLeadSlash at h ⊢
  cases out with
  | nil => simpa using hc
  | cons d out => simpa [List.getLast?_cons_cons] using h

theorem noLeadSlash_push (c : Char) (out : List Char) (hne : out ≠ []) (h : NoLeadSlash out) :
    NoLeadSlash (c :: out) := by
  unfold NoLeadSlash at h ⊢
  cases out with
  | nil => exact absurd rfl hne
  | cons d out => simpa [List.getLast?_cons_cons] using h

theorem noLeadSlash_tail (c : Char) (out : List Char) (h : NoLeadSlash (c :: out)) :
    NoLeadSlash out := by
  unfold NoLeadSlash at h ⊢
  cases out with
  | nil => simp
  | cons d out => simpa [List.getLast?_cons_cons] using h

theorem noLeadSlash_backtrack (dd : Nat) (out : List Char) (h : NoLeadSlash out) :
    NoLeadSlash (backtrack dd out) := by
  induction out with
  | nil => exact h
  | cons c out ih =>
    have h2 := noLeadSlash_tail c out h
    unfold backtrack
    split
    · exact ih h2
    · exact h2

theorem noLeadSlash_addSlash (c : Char) (out : List Char) (hc : c ≠ '/') (h : NoLeadSlash out) :
    NoLeadSlash (c :: addSlash false out) := by
  unfold addSlash
  by_cases h0 : out = []
  · subst h0; simpa [NoLeadSlash] using hc
  · have hl : out.length ≠ 0 := by simpa using h0
    simp only [Bool.false_and, Bool.not_false, Bool.true_and, Bool.false_or, bne_iff_ne, ne_eq,
      hl, not_false_eq_true, if_true]
    exact noLeadSlash_push c _ (by simp) (noLeadSlash_push '/' out h0 h)

/-- Loop invariant of `Clean` on a path that is not rooted: the buffer never
begins with a separator. -/
theorem cleanLoop_noLeadSlash (n : Nat) : ∀ (path : List Char), path.length ≤ n →
    ∀ (m : Bool) (out : List Char) (dd : Nat), NoLeadSlash out →
      NoLeadSlash (cleanLoop false m path out dd).1 := by
  induction n with
  | zero =>
    intro path hp m out dd h
    have : path = [] := List.length_eq_zero.mp (Nat.le_zero.mp hp)
    subst this
    rw [cleanLoop_nil]; exact h
  | succ n ih =>
    intro path hp m out dd h
    cases path with
    | nil => rw [cleanLoop_nil]; exact h
    | cons c rest =>
      have hrest : rest.length ≤ n := by simpa using hp
      cases m with
      | true =>
        rw [cleanLoop_true_cons]
        by_cases hc : c = '/'
        · rw [if_pos hc]; exact ih rest hrest _ _ _ h
        · rw [if_neg hc]; exact ih rest hrest _ _ _ (noLeadSlash_cons c out hc h)
      | false =>
        rw [cleanLoop_false_cons]
        by_cases hc : c = '/'
        · rw [if_pos hc]; exact ih rest hrest _ _ _ h
        · rw [if_neg hc]
          by_cases h1 : c = '.' ∧ (rest = [] ∨ rest.head? = some '/')
          · rw [if_pos h1]; exact ih rest hrest _ _ _ h
          · rw [if_neg h1]
            by_cases h2 : c = '.' ∧ rest.head? = some '.' ∧
                (rest.tail = [] ∨ rest.tail.head? = some '/')
            · rw [if_pos h2]
              cases rest with
              | nil => exact h
              | cons d rest2 =>
                have hrest2 : rest2.length ≤ n := by
                  simp only [List.length_cons] at hrest; omega
                by_cases h3 : dd < out.length
                · simp only [if_pos h3]
                  exact ih rest2 hrest2 _ _ _ (noLeadSlash_backtrack dd out h)
                · simp only [if_neg h3, Bool.not_false, if_true]
                  refine ih rest2 hrest2 _ _ _ ?_
                  have hdot : ('.' : Char) ≠ '/' := by decide
                  by_cases h0 : out = []
                  · subst h0
                    exact noLeadSlash_push '.' _ (by simp) (by simp [NoLeadSlash])
                  · have hl : 0 < out.length := List.length_pos.mpr h0
                    rw [if_pos hl]
                    exact noLeadSlash_push '.' _ (by simp)
                      (noLeadSlash_push '.' _ (by simp) (noLeadSlash_push '/' out h0 h))
            · rw [if_neg h2]
              exact ih rest hrest _ _ _ (noLeadSlash_addSlash c out hc h)

/-- `Clean` keeps a path absolute or relative as it is. -/
theorem IsAbs_Clean (path : List Char) (hne : path ≠ []) : IsAbs (Clean path) = IsAbs path := by
  cases path with
  | nil => exact absurd rfl hne
  | cons c rest =>
    by_cases hc : c = '/'
    · subst hc
      obtain ⟨es, _, h⟩ := Clean_rooted_form rest
      rw [h]
      unfold rootedPath
      cases es with
      | nil => rfl
      | cons e es => rfl
    · have h1 : IsAbs (c :: rest) = false := by simp [IsAbs, hc]
      rw [h1]
      have h2 := cleanLoop_noLeadSlash _ (c :: rest) (le_refl _) false [] 0 (by simp [NoLeadSlash])
      simp only [Clean, if_neg hc]
      split
      · rfl
      · unfold NoLeadSlash at h2
        simp only [IsAbs, List.head?_reverse]
        simpa using h2

/-! ## The static-asset handler: lemmas -/

theorem Abs_rooted (env : Env) (t : List Char) :
    Abs env ('/' :: t) = .ok (Clean ('/' :: t)) := by
  simp [Abs, IsAbs]

theorem Join_pair (a b : List Char) (ha : a ≠ []) : Join [a, b] = Clean (a ++ '/' :: b) := by
  simp [Join, ha, joinSep]

/-- Joining onto a non-empty directory gives an absolute path exactly when the
directory is absolute. -/
theorem IsAbs_Join (root p : List Char) (hroot : root ≠ []) :
    IsAbs (Join [root, p]) = IsAbs root := by
  rw [Join_pair root p hroot, IsAbs_Clean _ (by simp [hroot])]
  cases root with
  | nil => exact absurd rfl hroot
  | cons c t => rfl

theorem statName_ServeHTTP (h : spaHandler) (env : Env) (r : Request) (p : List Char)
    (hp : Abs env r.urlPath = .ok p) :
    statName (h.ServeHTTP env r) = some (Join [h.staticPath, p]) := by
  unfold spaHandler.ServeHTTP
  rw [hp]
  simp only []
  split
  · rfl
  · split <;> rfl

/-- Whenever normalization succeeds under an absolute working directory, the
normalized request path is a cleaned rooted path. -/
theorem Abs_rooted_form (env : Env) (u p : List Char)
    (hwd : ∀ wd, env.getwd = .ok wd → IsAbs wd = true) (hp : Abs env u = .ok p) :
    ∃ es, (∀ e ∈ es, NormalElem e) ∧ p = rootedPath es := by
  unfold Abs at hp
  by_cases hu : IsAbs u = true
  · rw [if_pos hu] at hp
    cases u with
    | nil => simp [IsAbs] at hu
    | cons c t =>
      have hc : c = '/' := by simpa [IsAbs] using hu
      subst hc
      obtain ⟨es, hes, h⟩ := Clean_rooted_form t
      refine ⟨es, hes, ?_⟩
      rw [← h]
      exact (Except.ok.inj hp).symm
  · rw [if_neg hu] at hp
    cases hg : env.getwd with
    | error e => rw [hg] at hp; cases hp
    | ok wd =>
      rw [hg] at hp
      have hw := hwd wd hg
      cases wd with
      | nil => simp [IsAbs] at hw
      | cons c w =>
        have hc : c = '/' := by simpa [IsAbs] using hw
        subst hc
        have hj : Join ['/' :: w, u] = Clean ('/' :: (w ++ '/' :: u)) := by
          rw [Join_pair _ _ (by simp)]; rfl
        obtain ⟨es, hes, h⟩ := Clean_rooted_form (w ++ '/' :: u)
        refine ⟨es, hes, ?_⟩
        rw [← h, ← hj]
        exact (Except.ok.inj hp).symm

/-- A cleaned directory followed by the elements of a cleaned rooted path is the
directory itself, or the directory, a separator and a rest without `..`. -/
theorem inside_of_segs (root : List Char) (es : List (List Char))
    (hes : ∀ e ∈ es, NormalElem e) :
    root ++ segs es = root ∨
      ∃ rem, root ++ segs es = root ++ '/' :: rem ∧ ['.', '.'] ∉ rem.splitOn '/' := by
  cases es with
  | nil => exact Or.inl (by simp [segs])
  | cons e es =>
    refine Or.inr ⟨e ++ segs es, rfl, ?_⟩
    rw [splitOn_segs e es (fun x hx => (hes x hx).2.1)]
    intro hmem
    exact (hes _ hmem).2.2.2 rfl

/-- A doubled separator reads like a single one. -/
theorem Clean_double_slash (a b : List Char) (ha : a ≠ []) :
    Clean (a ++ '/' :: '/' :: b) = Clean (a ++ '/' :: b) := by
  rw [Clean_eq_cleanState, Clean_eq_cleanState, cleanState_append_slash a _ ha,
    cleanState_append_slash a _ ha, cleanLoop_slash]

/-- A trailing `.` element reads like a trailing separator. -/
theorem Clean_trailing_dot (a : List Char) (ha : a ≠ []) :
    Clean (a ++ '/' :: ['.']) = Clean (a ++ '/' :: ['/']) := by
  have h1 : ¬ ('.' = '/') := by decide
  have h2 : cleanState (a ++ '/' :: ['.']) = cleanState a := by
    rw [cleanState_append_slash a _ ha, cleanLoop_false_cons, if_neg h1,
      if_pos ⟨rfl, Or.inl rfl⟩, cleanLoop_nil]
  have h3 : cleanState (a ++ '/' :: ['/']) = cleanState a := by
    rw [cleanState_append_slash a _ ha, cleanLoop_slash, cleanLoop_nil]
  rw [Clean_eq_cleanState, Clean_eq_cleanState, h2, h3]

/-- Both ways in which Go releases build the name that `Dir.Open` opens agree. -/
theorem dirOpenNameLocalized_eq (dir name : List Char) :
    dirOpenNameLocalized dir name = dirOpenName dir name := by
  unfold dirOpenNameLocalized dirOpenName
  simp only []
  have hdir : (if dir = [] then ['.'] else dir) ≠ [] := by
    by_cases h : dir = []
    · simp [h]
    · simp [h]
  generalize (if dir = [] then ['.'] else dir) = d at hdir
  obtain ⟨es, hes, hform⟩ := Clean_rooted_form name
  rw [hform, Join_pair _ _ hdir, Join_pair _ _ hdir]
  cases es with
  | nil => exact Clean_trailing_dot d hdir
  | cons e es =>
    have he : e ≠ [] := (hes e (by simp)).1
    have ht : (rootedPath (e :: es)).tail = e ++ segs es := rfl
    have hne : e ++ segs es ≠ [] := by simp [he]
    rw [ht, if_neg hne]
    exact (Clean_double_slash d (e ++ segs es) hdir).symm

/-- For a request path that begins with `/`, the file the file server opens
first has the name the handler stats. -/
theorem dirOpenName_Clean (root t : List Char) (hroot : root ≠ []) :
    dirOpenName root (Clean ('/' :: t)) = Join [root, Clean ('/' :: t)] := by
  obtain ⟨es, hes, hform⟩ := Clean_rooted_form t
  unfold dirOpenName
  rw [if_neg hroot, hform, Clean_slash_rootedPath es hes]

theorem Request_urlPath_eta (r : Request) : ({ r with urlPath := r.urlPath } : Request) = r := by
  cases r; rfl

/-- The file server on a request path that begins with `/` and does not end in
`/index.html`: `serveFile` past its first test. -/
theorem FileServer_rooted (disk : Disk) (root : List Char) (r : Request)
    (hreq : r.urlPath.head? = some '/')
    (hidx : "/index.html".toList.isSuffixOf r.urlPath = false) :
    FileServer disk root r =
      match osOpen disk (dirOpenName root (Clean r.urlPath)) with
      | .error err => toHTTPError err
      | .ok d =>
        if d = .directory ∧ r.urlPath.getLast? ≠ some '/' then
          localRedirect r (Base r.urlPath ++ ['/'])
        else if d = .regular ∧ r.urlPath.getLast? = some '/' then
          if Base r.urlPath = ['/'] ∨ Base r.urlPath = ['.'] then
            .error "http: attempting to traverse a non-directory" 500
          else localRedirect r ("../".toList ++ Base r.urlPath)
        else if d = .directory then
          match osOpen disk
              (dirOpenName root (trimSlash (Clean r.urlPath) ++ "/index.html".toList)) with
          | .ok .regular =>
            .content (dirOpenName root (trimSlash (Clean r.urlPath) ++ "/index.html".toList))
          | .ok .directory =>
            .dirList (dirOpenName root (trimSlash (Clean r.urlPath) ++ "/index.html".toList))
          | .error _ => .dirList (dirOpenName root (Clean r.urlPath))
        else .content (dirOpenName root (Clean r.urlPath)) := by
  unfold FileServer
  simp only [hreq, if_true, Request_urlPath_eta]
  unfold serveFile
  rw [hidx]
  simp only [Bool.false_eq_true, if_false, true_and]
  cases osOpen disk (dirOpenName root (Clean r.urlPath)) with
  | error err => rfl
  | ok d =>
    simp only []
    by_cases h1 : d = .directory ∧ r.urlPath.getLast? ≠ some '/'
    · rw [if_pos h1, if_pos h1]
    · rw [if_neg h1, if_neg h1]
      by_cases h2 : d = .regular ∧ r.urlPath.getLast? = some '/'
      · rw [if_pos h2, if_pos h2]
      · rw [if_neg h2, if_neg h2]
        by_cases h3 : d = .directory
        · have h4 : ¬ (r.urlPath.getLast? ≠ some '/') := fun h => h1 ⟨h3, h⟩
          rw [if_pos h3, if_pos h3, if_neg h4]
        · rw [if_neg h3, if_neg h3]

/-! ## The static-asset handler: the claims -/

/-- C1. For a cleaned, non-empty static root other than `.` and `/` and a
request path that begins with `/`, the path `ServeHTTP` stats is
`filepath.Join(staticPath, filepath.Abs(requestPath))`, and it is lexically
inside the static root: it is the static root itself, or the static root, a `/`
and a remainder none of whose `/`-separated segments is `..`. -/
theorem candidate_inside_static_root (h : spaHandler) (env : Env) (r : Request)
    (hne : h.staticPath ≠ []) (hclean : Clean h.staticPath = h.staticPath)
    (hdot : h.staticPath ≠ ['.']) (hslash : h.staticPath ≠ ['/'])
    (hreq : r.urlPath.head? = some '/') :
    ∃ p cand, Abs env r.urlPath = .ok p ∧ cand = Join [h.staticPath, p] ∧
      statName (h.ServeHTTP env r) = some cand ∧
      (cand = h.staticPath ∨
        ∃ rem, cand = h.staticPath ++ '/' :: rem ∧ ['.', '.'] ∉ rem.splitOn '/') := by
  cases hu : r.urlPath with
  | nil => rw [hu] at hreq; simp at hreq
  | cons c t =>
    rw [hu] at hreq
    have hc : c = '/' := by simpa using hreq
    subst hc
    have hp : Abs env r.urlPath = .ok (Clean ('/' :: t)) := by rw [hu]; exact Abs_rooted env t
    obtain ⟨es, hes, hform⟩ := Clean_rooted_form t
    refine ⟨Clean ('/' :: t), _, hu ▸ hp, rfl, statName_ServeHTTP h env r _ hp, ?_⟩
    rw [Join_pair _ _ hne, hform, Clean_append_rootedPath _ hne hclean hdot hslash es hes]
    exact inside_of_segs _ es hes

/-- C1, at the traversal request `/../../etc/passwd` on the root `/srv/build`. -/
theorem candidate_inside_static_root_witness :
    ∃ p cand, Abs emptyDiskEnv (getRequest "/../../etc/passwd".toList).urlPath = .ok p ∧
      cand = Join [srvHandler.staticPath, p] ∧
      statName (srvHandler.ServeHTTP emptyDiskEnv (getRequest "/../../etc/passwd".toList))
        = some cand ∧
      (cand = srvHandler.staticPath ∨
        ∃ rem, cand = srvHandler.staticPath ++ '/' :: rem ∧ ['.', '.'] ∉ rem.splitOn '/') :=
  candidate_inside_static_root srvHandler emptyDiskEnv (getRequest "/../../etc/passwd".toList)
    (by decide) (by decide) (by decide) (by decide) (by decide)

/-- The library call that ends `ServeHTTP` is decided by `os.Stat` on the
candidate path alone: a not-exist error gives `http.ServeFile` on
`filepath.Join(staticPath, indexPath)`, any other error `http.Error` with status
500 and the error text, success the delegation of the unchanged request to a
file server rooted at `staticPath`. -/
theorem ServeHTTP_calls_by_stat (h : spaHandler) (env : Env) (r : Request) (p : List Char)
    (hp : Abs env r.urlPath = .ok p) :
    (∀ err, osStat env (Join [h.staticPath, p]) = some err → err.notExist = true →
      h.ServeHTTP env r =
        [.stat (Join [h.staticPath, p]), .serveFile r (Join [h.staticPath, h.indexPath])]) ∧
    (∀ err, osStat env (Join [h.staticPath, p]) = some err → err.notExist = false →
      h.ServeHTTP env r = [.stat (Join [h.staticPath, p]), .httpError err.text 500]) ∧
    (osStat env (Join [h.staticPath, p]) = none →
      h.ServeHTTP env r = [.stat (Join [h.staticPath, p]), .fileServer h.staticPath r]) := by
  refine ⟨?_, ?_, ?_⟩
  · intro err herr hne
    simp [spaHandler.ServeHTTP, hp, herr, IsNotExist, hne]
  · intro err herr hne
    simp [spaHandler.ServeHTTP, hp, herr, IsNotExist, hne, errorText]
  · intro herr
    simp [spaHandler.ServeHTTP, hp, herr, IsNotExist]

/-- C2, at the failing input. On a disk with `build/index.html`, the request
path `/x/y/index.html` names no file: `os.Stat` on the candidate
`build/x/y/index.html` reports not-exist and the handler calls
`http.ServeFile(w, r, "build/index.html")` with the request as it came.
`http.ServeFile` looks at the URL path of that request, finds that it ends in
`/index.html` and answers 301 with `Location: ./`; the index file is not
served.  A request path with a `..` element between slashes or backslashes is
answered 400 by the same call.  For the missing path `/dashboard/settings` the
index file is served. -/
theorem missing_index_html_is_redirected :
    osStat spaEnv "build/x/y/index.html".toList =
      some ⟨true, "stat build/x/y/index.html: no such file or directory"⟩ ∧
    buildHandler.ServeHTTP spaEnv (getRequest "/x/y/index.html".toList) =
      [.stat "build/x/y/index.html".toList,
       .serveFile (getRequest "/x/y/index.html".toList) "build/index.html".toList] ∧
    responseOf spaDisk (buildHandler.ServeHTTP spaEnv (getRequest "/x/y/index.html".toList))
      = some (.redirect "./") ∧
    responseOf spaDisk (buildHandler.ServeHTTP spaEnv (getRequest "/a\\..\\b".toList))
      = some (.error "invalid URL path" 400) ∧
    responseOf spaDisk (buildHandler.ServeHTTP spaEnv (getRequest "/dashboard/settings".toList))
      = some (.content "build/index.html".toList) :=
  ⟨by decide, by decide, by decide, by decide, by decide⟩

/-- C3, as stated, fails: the request path `/a<NUL>b` contains a NUL byte, yet
normalization succeeds, the candidate path `build/a<NUL>b` is handed to
`os.Stat`, and the response is the 500 of the stat error, not a 400. -/
theorem nul_path_is_stat_checked :
    Char.ofNat 0 ∈ (getRequest nulPath).urlPath ∧
    Abs fullDiskEnv (getRequest nulPath).urlPath = .ok nulPath ∧
    buildHandler.ServeHTTP fullDiskEnv (getRequest nulPath) =
      [.stat ("build".toList ++ nulPath),
       .httpError ("stat " ++ String.mk ("build".toList ++ nulPath) ++ ": invalid argument") 500] :=
  ⟨by decide, rfl, rfl⟩

/-- C3, amended. `ServeHTTP` answers 400 exactly when `filepath.Abs` fails on
the request path: the response is then the single call
`http.Error(w, err.Error(), 400)`, with no `os.Stat`, no index fallback and no
500; and `filepath.Abs` fails only on a request path that does not begin with
`/` when the working directory cannot be determined, so a request path that
begins with `/` always passes normalization, with or without a NUL byte. -/
theorem ServeHTTP_bad_request (h : spaHandler) (env : Env) (r : Request) (e : String)
    (hfail : Abs env r.urlPath = .error e) :
    h.ServeHTTP env r = [.httpError e 400] ∧
    statName (h.ServeHTTP env r) = none ∧
    IsAbs r.urlPath = false ∧ env.getwd = .error e ∧
    (∀ (env2 : Env) (t : List Char), Abs env2 ('/' :: t) = .ok (Clean ('/' :: t))) ∧
    (∀ (h2 : spaHandler) (env2 : Env) (r2 : Request) (e2 : String),
      .httpError e2 400 ∈ h2.ServeHTTP env2 r2 → Abs env2 r2.urlPath = .error e2) := by
  have h1 : h.ServeHTTP env r = [.httpError e 400] := by
    simp [spaHandler.ServeHTTP, hfail]
  refine ⟨h1, by rw [h1]; rfl, ?_, ?_, Abs_rooted, ?_⟩
  · unfold Abs at hfail
    by_cases hu : IsAbs r.urlPath = true
    · rw [if_pos hu] at hfail; cases hfail
    · simpa using hu
  · unfold Abs at hfail
    by_cases hu : IsAbs r.urlPath = true
    · rw [if_pos hu] at hfail; cases hfail
    · rw [if_neg hu] at hfail
      cases hg : env.getwd with
      | error e0 => rw [hg] at hfail; rw [Except.error.inj hfail]
      | ok wd => rw [hg] at hfail; cases hfail
  · intro h2 env2 r2 e2 hmem
    unfold spaHandler.ServeHTTP at hmem
    cases ha : Abs env2 r2.urlPath with
    | error e0 =>
      rw [ha] at hmem
      simp at hmem
      rw [hmem]
    | ok p =>
      rw [ha] at hmem
      simp only [] at hmem
      split at hmem
      · simp at hmem
      · split at hmem <;> simp at hmem

/-- C3 amended, at a relative request path in a process without working
directory. -/
theorem ServeHTTP_bad_request_witness :
    buildHandler.ServeHTTP noCwdEnv (getRequest "index.html".toList)
      = [.httpError "getwd: no such file or directory" 400] :=
  (ServeHTTP_bad_request buildHandler noCwdEnv (getRequest "index.html".toList)
    "getwd: no such file or directory" rfl).1

/-- C4, as stated, fails: for the handler `run` constructs and the request path
`/`, the candidate path is `build` and the fallback path `build/index.html`;
neither begins with `/`. -/
theorem run_handler_paths_not_absolute :
    (run publicLoaded).toOption.bind (fun s => spaOf s.srv.Handler) = some buildHandler ∧
    Abs fullDiskEnv "/".toList = .ok "/".toList ∧
    Join [buildHandler.staticPath, "/".toList] = "build".toList ∧
    IsAbs (Join [buildHandler.staticPath, "/".toList]) = false ∧
    Join [buildHandler.staticPath, buildHandler.indexPath] = "build/index.html".toList ∧
    IsAbs (Join [buildHandler.staticPath, buildHandler.indexPath]) = false :=
  ⟨by decide, rfl, by decide, by decide, by decide, by decide⟩

theorem run_spa (l : Loaded) (s : Servers) (hrun : run l = .ok s) :
    spaOf s.srv.Handler = some buildHandler ∧
    s.srv.Handler = [⟨.path "/api/health".toList, .health⟩,
      ⟨.pathPrefix "/".toList, .spa buildHandler⟩] ∧
    s.srv.Addr = l.config.Required.SpaHost ∧ s.ws.Addr = l.config.Required.WsHost := by
  unfold run at hrun
  cases h1 : l.readErr with
  | some e => simp only [h1] at hrun; cases hrun
  | none =>
    cases h2 : l.unmarshalErr with
    | some e => simp only [h1, h2] at hrun; cases hrun
    | none =>
      cases h3 : validateStruct l.config with
      | some e => simp only [h1, h2, h3] at hrun; cases hrun
      | none =>
        simp only [h1, h2, h3] at hrun
        have := Except.ok.inj hrun
        subst this
        exact ⟨rfl, rfl, rfl, rfl⟩

/-- C4, amended. For the handler `run` constructs, every environment with an
absolute working directory and every request path whose normalization succeeds:
the normalized request path is syntactically absolute, and the path the handler
stats (the candidate path) and the fallback path are syntactically absolute
exactly when the static root of the handler is; joined onto a relative static
root they are relative to the working directory. -/
theorem run_handler_paths (l : Loaded) (s : Servers) (h : spaHandler) (env : Env)
    (r : Request) (p : List Char)
    (hrun : run l = .ok s) (hspa : spaOf s.srv.Handler = some h)
    (hwd : ∀ wd, env.getwd = .ok wd → IsAbs wd = true)
    (hp : Abs env r.urlPath = .ok p) :
    IsAbs p = true ∧
    statName (h.ServeHTTP env r) = some (Join [h.staticPath, p]) ∧
    IsAbs (Join [h.staticPath, p]) = IsAbs h.staticPath ∧
    IsAbs (Join [h.staticPath, h.indexPath]) = IsAbs h.staticPath := by
  have hh : h = buildHandler := by
    have := (run_spa l s hrun).1
    rw [hspa] at this
    exact Option.some.inj this
  have hroot : h.staticPath ≠ [] := by rw [hh]; decide
  obtain ⟨es, hes, hform⟩ := Abs_rooted_form env r.urlPath p hwd hp
  refine ⟨?_, statName_ServeHTTP _ env r p hp, IsAbs_Join _ _ hroot, IsAbs_Join _ _ hroot⟩
  rw [hform]
  unfold rootedPath
  cases es with
  | nil => rfl
  | cons e es => rfl

/-- C4 amended, at the request path `/dashboard/settings`: the normalized
request path is absolute, the candidate path `build/dashboard/settings` and the
fallback path are not. -/
theorem run_handler_paths_witness :
    IsAbs "/dashboard/settings".toList = true ∧
    statName (buildHandler.ServeHTTP emptyDiskEnv (getRequest "/dashboard/settings".toList))
      = some "build/dashboard/settings".toList ∧
    IsAbs "build/dashboard/settings".toList = false ∧
    IsAbs (Join [buildHandler.staticPath, buildHandler.indexPath]) = false :=
  run_handler_paths publicLoaded
    { srv := { Handler := [⟨.path "/api/health".toList, .health⟩,
                 ⟨.pathPrefix "/".toList, .spa buildHandler⟩],
               Addr := "127.0.0.1:8000", WriteTimeout := 15, ReadTimeout := 15 }
      ws := { Handler := [⟨.path "/".toList, .home⟩, ⟨.path "/flutter".toList, .flutter⟩],
              Addr := "127.0.0.1:8001", WriteTimeout := 15, ReadTimeout := 15 } }
    buildHandler emptyDiskEnv (getRequest "/dashboard/settings".toList)
    "/dashboard/settings".toList rfl rfl
    (fun wd hwd => by
      have : wd = "/home/app".toList := (Except.ok.inj hwd).symm
      rw [this]; rfl)
    rfl

/-- C5, at the failing input: with the valid configuration
`Dir = "public"`, `run` starts the asset server with a handler whose static
root is `build`, not `public`, while both listener addresses are the configured
ones. -/
theorem run_ignores_configured_dir :
    validateStruct publicLoaded.config = none ∧
    (run publicLoaded).toOption.map (fun s => spaOf s.srv.Handler)
      = some (some { staticPath := "build".toList, indexPath := "index.html".toList }) ∧
    "build".toList ≠ publicLoaded.config.Required.Dir ∧
    (run publicLoaded).toOption.map (fun s => s.srv.Addr)
      = some publicLoaded.config.Required.SpaHost ∧
    (run publicLoaded).toOption.map (fun s => s.ws.Addr)
      = some publicLoaded.config.Required.WsHost :=
  ⟨by decide, by decide, by decide, by decide, by decide⟩

/-- C8. For every request, whatever its method, headers, query or body, the
handler registered at `/api/health` writes the JSON document `{"ok":true}`
(followed by the newline of `Encode`) with status 200; it reads neither the
static root nor the file system nor the path resolver; and on the router that
`run` builds a request for the URL path `/api/health` is routed to it, not to
the static-asset handler. -/
theorem health_check_fixed (r : Request) :
    healthHandler r = [.write "\x7b\"ok\":true\x7d\n"] ∧
    statusOf (healthHandler r) = some 200 ∧
    (∀ (l : Loaded) (s : Servers), run l = .ok s →
      routeMatch s.srv.Handler "/api/health".toList = some .health) := by
  refine ⟨rfl, rfl, ?_⟩
  intro l s hrun
  rw [(run_spa l s hrun).2.1]
  decide

/-- C10, as stated, fails: for the request path `/` the handler of `run` stats
the directory `build`, finds it and delegates to the file server, and the file
that is served is `build/index.html`, not the path that was checked. -/
theorem root_request_serves_index_inside :
    buildHandler.ServeHTTP spaEnv (getRequest "/".toList) =
      [.stat "build".toList, .fileServer "build".toList (getRequest "/".toList)] ∧
    responseOf spaDisk (buildHandler.ServeHTTP spaEnv (getRequest "/".toList))
      = some (.content "build/index.html".toList) ∧
    "build/index.html".toList ≠ "build".toList :=
  ⟨by decide, by decide, by decide⟩

/-- C10, amended. For every non-empty static root and every request path that
begins with `/` and does not end in `/index.html`, the path `ServeHTTP` stats
is the path the delegated `http.FileServer(http.Dir(staticPath))` opens first
(the static root joined with the cleaned request path); when the stat succeeds
the handler delegates the request unchanged.  What is served then depends on
what is found there: a regular file, requested without a trailing `/`, is
served itself, so the file served is the file checked, while with a trailing
`/` no file is served; a directory requested without a trailing `/` gets a
redirect to the path with it, and with it the `index.html` inside the
directory is served, or a listing; an error of the open is answered as such.
For a request path that does not begin with `/` the two can differ, because
the checked path then depends on the working directory: for `a` the handler
of `run` stats `build/home/app/a` in `/home/app`, the file server opens
`build/a`. -/
theorem checked_path_is_served_path (h : spaHandler) (env : Env) (disk : Disk) (r : Request)
    (hroot : h.staticPath ≠ []) (hreq : r.urlPath.head? = some '/')
    (hidx : "/index.html".toList.isSuffixOf r.urlPath = false) :
    Abs env r.urlPath = .ok (Clean r.urlPath) ∧
    Join [h.staticPath, Clean r.urlPath] = dirOpenName h.staticPath (Clean r.urlPath) ∧
    statName (h.ServeHTTP env r) = some (dirOpenName h.staticPath (Clean r.urlPath)) ∧
    (osStat env (dirOpenName h.staticPath (Clean r.urlPath)) = none →
      h.ServeHTTP env r =
        [.stat (dirOpenName h.staticPath (Clean r.urlPath)), .fileServer h.staticPath r]) ∧
    (∀ err, osOpen disk (dirOpenName h.staticPath (Clean r.urlPath)) = .error err →
      FileServer disk h.staticPath r = toHTTPError err) ∧
    (osOpen disk (dirOpenName h.staticPath (Clean r.urlPath)) = .ok .regular →
      (r.urlPath.getLast? ≠ some '/' →
        FileServer disk h.staticPath r
          = .content (dirOpenName h.staticPath (Clean r.urlPath))) ∧
      (r.urlPath.getLast? = some '/' →
        ∀ name, FileServer disk h.staticPath r ≠ .content name)) ∧
    (osOpen disk (dirOpenName h.staticPath (Clean r.urlPath)) = .ok .directory →
      (r.urlPath.getLast? ≠ some '/' →
        FileServer disk h.staticPath r = localRedirect r (Base r.urlPath ++ ['/'])) ∧
      (r.urlPath.getLast? = some '/' →
        FileServer disk h.staticPath r =
          match osOpen disk (dirOpenName h.staticPath
              (trimSlash (Clean r.urlPath) ++ "/index.html".toList)) with
          | .ok .regular => .content (dirOpenName h.staticPath
              (trimSlash (Clean r.urlPath) ++ "/index.html".toList))
          | .ok .directory => .dirList (dirOpenName h.staticPath
              (trimSlash (Clean r.urlPath) ++ "/index.html".toList))
          | .error _ => .dirList (dirOpenName h.staticPath (Clean r.urlPath)))) ∧
    (statName (buildHandler.ServeHTTP spaEnv (getRequest "a".toList))
        = some "build/home/app/a".toList ∧
      FileServer spaDisk buildHandler.staticPath (getRequest "a".toList)
        = toHTTPError .notExist ∧
      dirOpenName buildHandler.staticPath (Clean "/a".toList) = "build/a".toList) := by
  have hfs := FileServer_rooted disk h.staticPath r hreq hidx
  obtain ⟨t, hu⟩ : ∃ t, r.urlPath = '/' :: t := by
    cases hr : r.urlPath with
    | nil => rw [hr] at hreq; simp at hreq
    | cons c t =>
      rw [hr] at hreq
      have hc : c = '/' := by simpa using hreq
      exact ⟨t, by rw [hc]⟩
  have hp : Abs env r.urlPath = .ok (Clean r.urlPath) := by rw [hu]; exact Abs_rooted env t
  have hname : dirOpenName h.staticPath (Clean r.urlPath) = Join [h.staticPath, Clean r.urlPath] := by
    rw [hu]; exact dirOpenName_Clean _ t hroot
  refine ⟨hp, hname.symm, ?_, ?_, ?_, ?_, ?_, by decide, by decide, by decide⟩
  · rw [hname]; exact statName_ServeHTTP h env r _ hp
  · intro hstat
    rw [hname] at hstat ⊢
    exact (ServeHTTP_calls_by_stat h env r _ hp).2.2 hstat
  · intro err herr
    rw [hfs, herr]
  · intro hreg
    rw [hfs, hreg]
    refine ⟨?_, ?_⟩
    · intro hlast
      simp [hlast]
    · intro hlast name
      simp only [hlast]
      simp only [reduceCtorEq, false_and, if_false, true_and, if_true, ne_eq, not_true_eq_false,
        and_false]
      split
      · simp
      · simp [localRedirect]
        split <;> simp
  · intro hdir
    rw [hfs, hdir]
    refine ⟨?_, ?_⟩
    · intro hlast
      simp [hlast]
    · intro hlast
      simp [hlast]

/-- C10 amended, at the request path `/static/app.js` on a disk that holds the
file: the handler of `run` stats `build/static/app.js`, and that file is what
the file server serves. -/
theorem checked_path_is_served_path_witness :
    statName (buildHandler.ServeHTTP spaEnv (getRequest "/static/app.js".toList))
      = some "build/static/app.js".toList ∧
    buildHandler.ServeHTTP spaEnv (getRequest "/static/app.js".toList) =
      [.stat "build/static/app.js".toList,
       .fileServer "build".toList (getRequest "/static/app.js".toList)] ∧
    FileServer spaDisk "build".toList (getRequest "/static/app.js".toList)
      = .content "build/static/app.js".toList :=
  have h := checked_path_is_served_path buildHandler spaEnv spaDisk
    (getRequest "/static/app.js".toList) (by decide) (by decide) (by decide)
  ⟨h.2.2.1, h.2.2.2.1 (by decide), (h.2.2.2.2.2.1 rfl).1 (by decide)⟩

/-! ## The echo relay: lemmas -/

theorem transfers_cons_log (ev : WsEvent) (rest : List WsEvent) (h : ev.isTransfer = false) :
    (ev :: rest).filter WsEvent.isTransfer = rest.filter WsEvent.isTransfer := by
  simp [List.filter, h]

/-- As long as every receive and every send succeeds, the loop alternates
receive and send and is still running. -/
theorem relayLoop_echo (c : Conn) (hwrite : ∀ i m, c.WriteMessage i m = none) :
    ∀ (ms : List Message) (k : Nat), (∀ i m, ms[i]? = some m → c.ReadMessage (k + i) = .ok m) →
      (relayLoop c ms.length k).2 = false ∧
      (relayLoop c ms.length k).1.filter WsEvent.isTransfer = echoTransfers ms ∧
      sent (relayLoop c ms.length k).1 = ms ∧ received (relayLoop c ms.length k).1 = ms := by
  intro ms
  induction ms with
  | nil => intro k _; exact ⟨rfl, rfl, rfl, rfl⟩
  | cons m ms ih =>
    intro k hread
    have h0 : c.ReadMessage k = .ok m := by simpa using hread 0 m (by simp)
    have hrest : ∀ i m2, ms[i]? = some m2 → c.ReadMessage (k + 1 + i) = .ok m2 := by
      intro i m2 hi
      have := hread (i + 1) m2 (by simpa using hi)
      rw [← this]; congr 1; omega
    obtain ⟨h1, h2, h3, h4⟩ := ih (k + 1) hrest
    simp only [List.length_cons, relayLoop, h0, hwrite]
    refine ⟨h1, ?_, ?_, ?_⟩
    · simp [List.filter, WsEvent.isTransfer, echoTransfers, ← h2]
    · simp [sent, h3]
    · simp [received, h4]

/-- When the receive after the messages `ms` fails, the loop is left there, with
any larger bound. -/
theorem relayLoop_echo_closed (c : Conn) (hwrite : ∀ i m, c.WriteMessage i m = none) (err : String) :
    ∀ (ms : List Message) (k fuel : Nat),
      (∀ i m, ms[i]? = some m → c.ReadMessage (k + i) = .ok m) →
      c.ReadMessage (k + ms.length) = .error err → ms.length < fuel →
      (relayLoop c fuel k).2 = true ∧
      (relayLoop c fuel k).1.filter WsEvent.isTransfer = echoTransfers ms ++ [.readErr err] ∧
      sent (relayLoop c fuel k).1 = ms ∧ received (relayLoop c fuel k).1 = ms := by
  intro ms
  induction ms with
  | nil =>
    intro k fuel _ herr hfuel
    obtain ⟨n, rfl⟩ : ∃ n, fuel = n + 1 := ⟨fuel - 1, by simp at hfuel; omega⟩
    have herr0 : c.ReadMessage k = .error err := by simpa using herr
    simp [relayLoop, herr0, List.filter, WsEvent.isTransfer, echoTransfers, sent, received]
  | cons m ms ih =>
    intro k fuel hread herr hfuel
    obtain ⟨n, rfl⟩ : ∃ n, fuel = n + 1 := ⟨fuel - 1, by simp at hfuel; omega⟩
    have h0 : c.ReadMessage k = .ok m := by simpa using hread 0 m (by simp)
    have hrest : ∀ i m2, ms[i]? = some m2 → c.ReadMessage (k + 1 + i) = .ok m2 := by
      intro i m2 hi
      have := hread (i + 1) m2 (by simpa using hi)
      rw [← this]; congr 1; omega
    have herr1 : c.ReadMessage (k + 1 + ms.length) = .error err := by
      rw [← herr]; congr 1; simp only [List.length_cons]; omega
    obtain ⟨h1, h2, h3, h4⟩ := ih (k + 1) n hrest herr1 (by simp at hfuel; omega)
    simp only [relayLoop, h0, hwrite]
    refine ⟨h1, ?_, ?_, ?_⟩
    · simp [List.filter, WsEvent.isTransfer, echoTransfers, ← h2]
    · simp [sent, h3]
    · simp [received, h4]

/-- What has been sent is what has been received, or that without its last
message. -/
theorem relayLoop_sent (c : Conn) : ∀ (fuel k : Nat),
    sent (relayLoop c fuel k).1 <+: received (relayLoop c fuel k).1 := by
  intro fuel
  induction fuel with
  | zero => intro k; exact List.prefix_refl _
  | succ n ih =>
    intro k
    cases hr : c.ReadMessage k with
    | error e => simp [relayLoop, hr, sent, received]
    | ok m =>
      cases hw : c.WriteMessage k m with
      | some e => simp [relayLoop, hr, hw, sent, received]
      | none =>
        simp only [relayLoop, hr, hw, sent, received]
        exact (List.prefix_cons_inj m).mpr (ih (k + 1))

theorem sent_append_close (tr : List WsEvent) : sent (tr ++ [.close]) = sent tr := by
  induction tr with
  | nil => rfl
  | cons ev tr ih => cases ev <;> simp [sent, ih]

theorem received_append_close (tr : List WsEvent) :
    received (tr ++ [.close]) = received tr := by
  induction tr with
  | nil => rfl
  | cons ev tr ih => cases ev <;> simp [received, ih]

theorem transfers_append_close (tr : List WsEvent) :
    (tr ++ [WsEvent.close]).filter WsEvent.isTransfer = tr.filter WsEvent.isTransfer := by
  simp [List.filter_append, List.filter, WsEvent.isTransfer]

/-! ## The echo relay: the claims -/

/-- C6. When the messages `ms` are received successfully, in this order, on an
upgraded connection on which every send succeeds, then after these receives the
relay has made exactly one send per receive, alternating, each send with the
type and payload just received: the messages sent are `ms`.  If the next receive
fails, `flutter` returns having sent exactly `ms`, whatever the bound on the
iterations.  On every connection and at every point of a run the messages sent
are an initial segment of the messages received. -/
theorem flutter_echoes_in_order (c : Conn) (ms : List Message)
    (hread : ∀ i m, ms[i]? = some m → c.ReadMessage i = .ok m)
    (hwrite : ∀ i m, c.WriteMessage i m = none) :
    (flutter (.ok c) ms.length).1.filter WsEvent.isTransfer = echoTransfers ms ∧
    sent (flutter (.ok c) ms.length).1 = ms ∧
    received (flutter (.ok c) ms.length).1 = ms ∧
    (∀ err fuel, c.ReadMessage ms.length = .error err → ms.length < fuel →
      (flutter (.ok c) fuel).2 = true ∧
      (flutter (.ok c) fuel).1.filter WsEvent.isTransfer = echoTransfers ms ++ [.readErr err] ∧
      sent (flutter (.ok c) fuel).1 = ms) ∧
    (∀ (c2 : Conn) (fuel : Nat),
      sent (flutter (.ok c2) fuel).1 <+: received (flutter (.ok c2) fuel).1) := by
  have hread0 : ∀ i m, ms[i]? = some m → c.ReadMessage (0 + i) = .ok m := by
    intro i m hi; rw [Nat.zero_add]; exact hread i m hi
  obtain ⟨h1, h2, h3, h4⟩ := relayLoop_echo c hwrite ms 0 hread0
  refine ⟨?_, ?_, ?_, ?_, ?_⟩
  · simp only [flutter, h1]; exact h2
  · simp only [flutter, h1]; exact h3
  · simp only [flutter, h1]; exact h4
  · intro err fuel herr hfuel
    obtain ⟨g1, g2, g3, _⟩ := relayLoop_echo_closed c hwrite err ms 0 fuel hread0
      (by rw [Nat.zero_add]; exact herr) hfuel
    simp only [flutter, g1, if_true]
    exact ⟨trivial, by rw [transfers_append_close]; exact g2,
      by rw [sent_append_close]; exact g3⟩
  · intro c2 fuel
    simp only [flutter]
    split
    · rw [sent_append_close, received_append_close]; exact relayLoop_sent c2 fuel 0
    · exact relayLoop_sent c2 fuel 0

/-- C6, on a connection that delivers two messages and is then closed. -/
theorem flutter_echoes_in_order_witness :
    (flutter (.ok twoThenClosed) 2).1.filter WsEvent.isTransfer = echoTransfers twoMessages ∧
    sent (flutter (.ok twoThenClosed) 2).1 = twoMessages ∧
    flutter (.ok twoThenClosed) 3 =
      ([.readOk ⟨1, [104, 105]⟩, .logRecv [104, 105], .writeOk ⟨1, [104, 105]⟩,
        .readOk ⟨2, [0, 255]⟩, .logRecv [0, 255], .writeOk ⟨2, [0, 255]⟩,
        .readErr "websocket: close 1000 (normal)", .logRead "websocket: close 1000 (normal)",
        .close], true) :=
  have h := flutter_echoes_in_order twoThenClosed twoMessages
    (fun i m hi => by
      show (match twoMessages[i]? with
        | some m => Except.ok m
        | none => Except.error "websocket: close 1000 (normal)") = Except.ok m
      rw [hi])
    (fun _ _ => rfl)
  ⟨h.1, h.2.1, by decide⟩

theorem afterFailure_append (a b : List WsEvent) :
    afterFailure (a ++ b) =
      match afterFailure a with
      | some post => some (post ++ b)
      | none => afterFailure b := by
  induction a with
  | nil => rfl
  | cons ev a ih =>
    by_cases h : ev.isFailure = true
    · simp [afterFailure, h]
    · simp [afterFailure, h, ih]

/-- The loop never closes the connection itself; it is left exactly when a
receive or a send has failed, and nothing is received or sent after that. -/
theorem relayLoop_failure (c : Conn) : ∀ (fuel k : Nat),
    WsEvent.close ∉ (relayLoop c fuel k).1 ∧
    ((relayLoop c fuel k).2 = false → afterFailure (relayLoop c fuel k).1 = none) ∧
    ((relayLoop c fuel k).2 = true →
      ∃ post, afterFailure (relayLoop c fuel k).1 = some post ∧
        ∀ x ∈ post, x.isTransfer = false) := by
  intro fuel
  induction fuel with
  | zero => intro k; simp [relayLoop, afterFailure]
  | succ n ih =>
    intro k
    cases hr : c.ReadMessage k with
    | error e => simp [relayLoop, hr, afterFailure, WsEvent.isFailure, WsEvent.isTransfer]
    | ok m =>
      cases hw : c.WriteMessage k m with
      | some e => simp [relayLoop, hr, hw, afterFailure, WsEvent.isFailure, WsEvent.isTransfer]
      | none =>
        obtain ⟨h1, h2, h3⟩ := ih (k + 1)
        simp only [relayLoop, hr, hw]
        refine ⟨?_, ?_, ?_⟩
        · simp [h1]
        · intro hd; simpa [afterFailure, WsEvent.isFailure] using h2 hd
        · intro hd; simpa [afterFailure, WsEvent.isFailure] using h3 hd

/-- A failing iteration within the bound is reached, unless the loop was left
before it. -/
theorem relayLoop_reaches (c : Conn) : ∀ (fuel k j : Nat), k ≤ j → j < k + fuel →
    failsAt c j → (relayLoop c fuel k).2 = true := by
  intro fuel
  induction fuel with
  | zero => intro k j h1 h2; omega
  | succ n ih =>
    intro k j h1 h2 hf
    cases hr : c.ReadMessage k with
    | error e => simp [relayLoop, hr]
    | ok m =>
      cases hw : c.WriteMessage k m with
      | some e => simp [relayLoop, hr, hw]
      | none =>
        simp only [relayLoop, hr, hw]
        have hjk : j ≠ k := by
          intro hjk
          subst hjk
          rcases hf with ⟨err, he⟩ | ⟨m2, err, hm, he⟩
          · rw [hr] at he; cases he
          · rw [hr] at hm
            have := Except.ok.inj hm
            subst this
            rw [hw] at he; cases he
        exact ih (k + 1) j (by omega) (by omega) hf

/-- Once the loop has been left, a larger bound changes nothing. -/
theorem relayLoop_stable (c : Conn) : ∀ (fuel k : Nat), (relayLoop c fuel k).2 = true →
    ∀ n, fuel ≤ n → relayLoop c n k = relayLoop c fuel k := by
  intro fuel
  induction fuel with
  | zero => intro k h; simp [relayLoop] at h
  | succ f ih =>
    intro k h n hn
    obtain ⟨n, rfl⟩ : ∃ n2, n = n2 + 1 := ⟨n - 1, by omega⟩
    cases hr : c.ReadMessage k with
    | error e => simp [relayLoop, hr]
    | ok m =>
      cases hw : c.WriteMessage k m with
      | some e => simp [relayLoop, hr, hw]
      | none =>
        simp only [relayLoop, hr, hw] at h ⊢
        rw [ih (k + 1) h n (by omega)]

/-- C7. On a successfully upgraded connection `flutter` returns exactly when a
receive or a send has failed; after the first such failure nothing more is
received or sent, and the connection is closed exactly once, as the last thing
the function does, whether the failure was on the read side or on the write
side; while the loop runs the connection is not closed.  A failure in an
iteration within the bound makes the function return, and once it has returned a
larger bound changes nothing.  When the upgrade fails, the failure is logged and
the function returns at once: nothing is received, sent or closed. -/
theorem flutter_failure_ends_relay (c : Conn) (fuel : Nat) :
    ((flutter (.ok c) fuel).2 = true ↔ ∃ post, afterFailure (flutter (.ok c) fuel).1 = some post) ∧
    (∀ post, afterFailure (flutter (.ok c) fuel).1 = some post →
      (∀ x ∈ post, x.isTransfer = false) ∧
      (flutter (.ok c) fuel).1.count .close = 1 ∧
      (flutter (.ok c) fuel).1.getLast? = some .close) ∧
    ((flutter (.ok c) fuel).2 = false → WsEvent.close ∉ (flutter (.ok c) fuel).1) ∧
    (∀ k, k < fuel → failsAt c k → (flutter (.ok c) fuel).2 = true) ∧
    ((flutter (.ok c) fuel).2 = true →
      ∀ n, fuel ≤ n → flutter (.ok c) n = flutter (.ok c) fuel) ∧
    (∀ err, flutter (.error err) fuel = ([.logUpgrade err], true)) := by
  obtain ⟨h1, h2, h3⟩ := relayLoop_failure c fuel 0
  cases hd : (relayLoop c fuel 0).2 with
  | false =>
    have hfl : flutter (.ok c) fuel = ((relayLoop c fuel 0).1, false) := by
      simp [flutter, hd]
    rw [hfl]
    refine ⟨?_, ?_, ?_, ?_, ?_, ?_⟩
    · simp [h2 hd]
    · intro post hpost
      simp only [h2 hd] at hpost
      cases hpost
    · intro _; exact h1
    · intro k hk hf
      have := relayLoop_reaches c fuel 0 k (Nat.zero_le _) (by omega) hf
      rw [hd] at this
      cases this
    · intro hcontra; cases hcontra
    · intro err; rfl
  | true =>
    obtain ⟨post, hpost, hnone⟩ := h3 hd
    have hfl : flutter (.ok c) fuel = ((relayLoop c fuel 0).1 ++ [.close], true) := by
      simp [flutter, hd]
    have haf : afterFailure ((relayLoop c fuel 0).1 ++ [.close]) = some (post ++ [.close]) := by
      rw [afterFailure_append, hpost]
    rw [hfl]
    refine ⟨?_, ?_, ?_, ?_, ?_, ?_⟩
    · simp [haf]
    · intro post2 hpost2
      simp only [haf] at hpost2
      have := Option.some.inj hpost2
      subst this
      refine ⟨?_, ?_, ?_⟩
      · intro x hx
        rcases List.mem_append.mp hx with hx | hx
        · exact hnone x hx
        · rw [List.mem_singleton.mp hx]; rfl
      · simp [List.count_append, List.count_eq_zero.mpr h1]
      · simp
    · intro hcontra; cases hcontra
    · intro _ _ _; rfl
    · intro _ n hn
      have := relayLoop_stable c fuel 0 hd n hn
      simp [flutter, this, hd]
    · intro err; rfl

/-- C7, on a connection whose first send fails: one receive, one failed send,
one close, and nothing after. -/
theorem flutter_failure_ends_relay_witness :
    flutter (.ok brokenWrite) 5 =
      ([.readOk ⟨1, [104, 105]⟩, .logRecv [104, 105],
        .writeErr ⟨1, [104, 105]⟩ "write: broken pipe", .logWrite "write: broken pipe",
        .close], true) ∧
    (flutter (.ok brokenWrite) 5).1.count .close = 1 ∧
    flutter (.ok brokenWrite) 1 = flutter (.ok brokenWrite) 5 :=
  ⟨by decide,
   ((flutter_failure_ends_relay brokenWrite 5).2.1 [.logWrite "write: broken pipe", .close]
      (by decide)).2.1,
   ((flutter_failure_ends_relay brokenWrite 1).2.2.2.2.1 (by decide) 5 (by decide)).symm⟩

end SpaServer
